import Mathlib

set_option maxHeartbeats 1000000
set_option maxRecDepth 100000
set_option allowUnsafeReducibility true
attribute [local semireducible] Rat.mul Rat.add Rat.sub Rat.neg Rat.inv Rat.div

/-!
Verification development for the deal-extraction evaluation engine of the
smart-deal-finder repository.  The Python sources embedded here are
src/smart-deal-app/backend/services/prebench.py (field normalizers,
similarity scorer, greedy matcher, per-sample scorer, corpus aggregation)
and src/dataset/benchmark_cloud_local.py (evaluate_metrics, calculate_iou,
its normalize_price and clean_json_output helpers).

Strings are modelled as List Char.  Python floats are modelled as exact
rationals; machine rounding artifacts (overflow to inf, negative zero,
binary rounding of the %.2f formatter at exact half-way points) are outside
the model.  Library calls made by the source are embedded at their
documented semantics: difflib.SequenceMatcher with no junk and autojunk
inert (all strings here are far below the 200-character activation bound),
the re module patterns actually occurring in the source, and json.loads on
the JSON subset the source exercises.
-/

/-- Python whitespace class (ASCII part of the re module class used by the
source): space, tab, newline, carriage return, vertical tab, form feed. -/
def isPySpace (c : Char) : Bool :=
  c = ' ' || c = '\t' || c = '\n' || c = '\r' || c = '\x0b' || c = '\x0c'

/-- ASCII lower-casing of one character, the fragment of str.lower the
evaluation path exercises. -/
def lowerChar (c : Char) : Char :=
  if 'A' ≤ c && c ≤ 'Z' then Char.ofNat (c.toNat + 32) else c

/-- Character class of the token regex [a-z0-9]+ used by
_token_set_similarity (inputs are already lower-cased there). -/
def isTokenChar (c : Char) : Bool :=
  ('a' ≤ c && c ≤ 'z') || ('0' ≤ c && c ≤ '9')

/-- Squeeze runs of spaces to a single space (the input has already had
every whitespace character mapped to a space). -/
def squeezeSpaces : List Char → List Char
  | [] => []
  | [c] => [c]
  | a :: b :: rest =>
    if a = ' ' && b = ' ' then squeezeSpaces (b :: rest)
    else a :: squeezeSpaces (b :: rest)

/-- Remove leading and trailing spaces (str.strip after whitespace has been
collapsed to spaces). -/
def stripSpaces (s : List Char) : List Char :=
  ((s.dropWhile (fun c => c = ' ')).reverse.dropWhile (fun c => c = ' ')).reverse

/-- re.sub of one or more whitespace characters by one space followed by
str.strip, as in _normalize_text / _normalize_eval_text of prebench.py. -/
def collapseWs (s : List Char) : List Char :=
  stripSpaces (squeezeSpaces (s.map (fun c => if isPySpace c then ' ' else c)))

/-- A Python value reaching the evaluation path through dict.get: absent or
None, a number, or a string. -/
inductive PyVal where
  | fnone : PyVal
  | fnum : ℚ → PyVal
  | fstr : List Char → PyVal
deriving DecidableEq

instance : Inhabited PyVal := ⟨PyVal.fnone⟩

/-- Decimal digits of a natural number, most significant first, via bounded
recursion (fuel is an upper bound on the number of digits). -/
def natDigitsAux : Nat → Nat → List Char
  | 0, _ => []
  | fuel + 1, n =>
    if n = 0 then []
    else natDigitsAux fuel (n / 10) ++ [Char.ofNat (48 + n % 10)]

/-- Decimal rendering of a natural number. -/
def natToChars (n : Nat) : List Char :=
  if n = 0 then [Char.ofNat 48] else natDigitsAux n n

/-- str of a float rendered with two decimals; the model rendering used for
the rare case where a numeric field reaches a string context. -/
def renderQ (q : ℚ) : List Char :=
  (if q < 0 then ['-'] else []) ++ natToChars q.num.natAbs ++
    (if q.den = 1 then [] else '/' :: natToChars q.den)

/-- str(text) for the PyVal values the evaluation path passes to the text
normalizers; None is handled before str is reached. -/
def fieldToChars : PyVal → List Char
  | PyVal.fnone => []
  | PyVal.fnum q => renderQ q
  | PyVal.fstr s => s

/-- _normalize_eval_text of prebench.py: empty for None, else collapse
whitespace, strip, lower-case. -/
def normalizeEvalText (v : PyVal) : List Char :=
  match v with
  | PyVal.fnone => []
  | _ => (collapseWs (fieldToChars v)).map lowerChar

/-- Maximal [a-z0-9]+ runs of a character list (re.findall of the token
pattern); the accumulator carries the current run reversed. -/
def tokensAux : List Char → List Char → List (List Char)
  | [], cur => if cur = [] then [] else [cur.reverse]
  | c :: rest, cur =>
    if isTokenChar c then tokensAux rest (c :: cur)
    else if cur = [] then tokensAux rest []
    else cur.reverse :: tokensAux rest []

/-- Token set of a string as in _token_set_similarity: lower-case, then the
set of [a-z0-9]+ runs. -/
def tokenSet (s : List Char) : Finset (List Char) :=
  (tokensAux (s.map lowerChar) []).toFinset

/-- _token_set_similarity of prebench.py: Jaccard index of the token sets;
both empty gives 1.0, exactly one empty gives 0.0. -/
def tokenSetSimilarity (a b : List Char) : ℚ :=
  let ta := tokenSet a
  let tb := tokenSet b
  if ta = ∅ ∧ tb = ∅ then 1
  else if ta = ∅ ∨ tb = ∅ then 0
  else ((ta ∩ tb).card : ℚ) / ((ta ∪ tb).card : ℚ)

/-- Length of the common prefix of two character lists. -/
def commonPrefixLen : List Char → List Char → Nat
  | c :: cs, d :: ds => if c = d then commonPrefixLen cs ds + 1 else 0
  | _, _ => 0

/-- difflib SequenceMatcher find_longest_match with no junk: the longest
matching block of a and b as (i, j, k); of all maximal blocks the one
starting earliest in a, then earliest in b, found by scanning start pairs
in lexicographic order and keeping the first strict improvement. -/
def findLongestMatch (a b : List Char) : Nat × Nat × Nat :=
  (List.range a.length).foldl
    (fun best i =>
      (List.range b.length).foldl
        (fun best j =>
          let k := commonPrefixLen (a.drop i) (b.drop j)
          if k > best.2.2 then (i, j, k) else best)
        best)
    (0, 0, 0)

/-- Total size of the matching blocks of difflib get_matching_blocks:
recursively take the longest match and recurse on the two sides.  The fuel
only bounds the recursion depth; a.length + 1 is always sufficient since
each recursive call strictly shrinks the first list. -/
def matchingTotalAux : Nat → List Char → List Char → Nat
  | 0, _, _ => 0
  | fuel + 1, a, b =>
    let t := findLongestMatch a b
    if t.2.2 = 0 then 0
    else
      t.2.2 + matchingTotalAux fuel (a.take t.1) (b.take t.2.1) +
        matchingTotalAux fuel (a.drop (t.1 + t.2.2)) (b.drop (t.2.1 + t.2.2))

/-- Total matched size M of SequenceMatcher(None, a, b). -/
def matchingTotal (a b : List Char) : Nat :=
  matchingTotalAux (a.length + 1) a b

/-- difflib SequenceMatcher ratio: 2 M / (len a + len b), and 1.0 when both
are empty (difflib _calculate_ratio). -/
def seqRatio (a b : List Char) : ℚ :=
  if a.length + b.length = 0 then 1
  else 2 * (matchingTotal a b : ℚ) / ((a.length : ℚ) + (b.length : ℚ))

/-- MIN_NAME_LEN of prebench.py. -/
def minNameLen : Nat := 4

/-- Whether small occurs inside big as a contiguous substring (the Python
in operator on strings). -/
def isSubstringOf (small big : List Char) : Bool :=
  (List.range (big.length + 1)).any
    (fun i => decide ((big.drop i).take small.length = small))

/-- _name_similarity of prebench.py: the maximum of the SequenceMatcher
ratio, the token-set Jaccard similarity, and a 0.9 substring bonus granted
when both normalized names have length at least MIN_NAME_LEN and one
contains the other. -/
def nameSimilarity (a b : PyVal) : ℚ :=
  let na := normalizeEvalText a
  let nb := normalizeEvalText b
  let seq := seqRatio na nb
  let tok := tokenSetSimilarity na nb
  let sub : ℚ :=
    if minNameLen ≤ na.length ∧ minNameLen ≤ nb.length ∧
        (isSubstringOf na nb || isSubstringOf nb na) then 9 / 10
    else 0
  max seq (max tok sub)

/-- Numeric value of a decimal digit character. -/
def digitVal (c : Char) : Nat := c.toNat - 48

/-- Value of a most-significant-first digit string. -/
def digitsToNat (l : List Char) : Nat :=
  l.foldl (fun acc c => acc * 10 + digitVal c) 0

/-- Greedy match of the decimal body of the _parse_number regex, digits
with an optional fraction part, at the start of the input. -/
def readNum (t : List Char) : Option ℚ :=
  let ds := t.takeWhile Char.isDigit
  if ds = [] then none
  else
    match t.dropWhile Char.isDigit with
    | '.' :: r2 =>
      let fs := r2.takeWhile Char.isDigit
      if fs = [] then some ((digitsToNat ds : ℚ))
      else some ((digitsToNat ds : ℚ) + (digitsToNat fs : ℚ) / (10 : ℚ) ^ fs.length)
    | _ => some ((digitsToNat ds : ℚ))

/-- Match of the full signed token at the start of the input.  At a
position starting with a dash the pattern can only succeed by consuming
the dash, so no backtracking case is needed. -/
def matchNumAt (t : List Char) : Option ℚ :=
  match t with
  | '-' :: r => (readNum r).map (fun q => -q)
  | _ => readNum t

/-- re.search of the first signed decimal token, scanning start positions
left to right as the re module does. -/
def findNumber : List Char → Option ℚ
  | [] => none
  | c :: rest =>
    match matchNumAt (c :: rest) with
    | some q => some q
    | none => findNumber rest

/-- _parse_number of prebench.py: numbers pass through as floats; strings
have commas replaced by dots and the first signed decimal token extracted;
anything else is None. -/
def parseNumber (v : PyVal) : Option ℚ :=
  match v with
  | PyVal.fnone => none
  | PyVal.fnum q => some q
  | PyVal.fstr s => findNumber (s.map (fun c => if c = ',' then '.' else c))

/-- Round to the nearest integer, ties to even, the rounding of the Python
%.2f formatter on an exactly representable value. -/
def roundHalfEven (q : ℚ) : ℤ :=
  let fl := ⌊q⌋
  let fr := q - (fl : ℚ)
  if fr < 1 / 2 then fl
  else if 1 / 2 < fr then fl + 1
  else if fl % 2 = 0 then fl else fl + 1

/-- Two-digit zero-padded rendering of a remainder below 100. -/
def pad2 (r : Nat) : List Char :=
  [Char.ofNat (48 + r / 10), Char.ofNat (48 + r % 10)]

/-- The %.2f format applied to an exact rational. -/
def formatPrice (q : ℚ) : List Char :=
  let n := roundHalfEven (q * 100)
  (if n < 0 then ['-'] else []) ++
    natToChars (n.natAbs / 100) ++ '.' :: pad2 (n.natAbs % 100)

/-- _normalize_price of prebench.py: the parsed number formatted with two
decimals, or None when no number parses. -/
def normalizePrice (v : PyVal) : Option (List Char) :=
  (parseNumber v).map formatPrice

/-- Matcher for the regular expression of the claim on normalize_price
output: one or more digits, a dot, exactly two digits, nothing else. -/
def matchesPriceShape (s : List Char) : Bool :=
  decide (s.takeWhile Char.isDigit ≠ []) &&
    (match s.dropWhile Char.isDigit with
     | ['.', d1, d2] => d1.isDigit && d2.isDigit
     | _ => false)

/-- The same shape with an optional leading minus sign. -/
def matchesSignedPriceShape (s : List Char) : Bool :=
  match s with
  | '-' :: r => matchesPriceShape r
  | _ => matchesPriceShape s

/-- Full match of a bare number, [0-9]+([.,][0-9]+)? against the whole
string, the price-artifact test of _normalize_unit_eval. -/
def fullNumericUnit (s : List Char) : Bool :=
  decide (s.takeWhile Char.isDigit ≠ []) &&
    (match s.dropWhile Char.isDigit with
     | [] => true
     | c :: r2 =>
       (c = '.' || c = ',') && decide (r2.takeWhile Char.isDigit ≠ []) &&
         decide (r2.dropWhile Char.isDigit = []))

/-- Greedy match of [0-9]+([.,][0-9]+)? at the start of the input,
returning the remainder. -/
def numAfter (t : List Char) : Option (List Char) :=
  if t.takeWhile Char.isDigit = [] then none
  else
    match t.dropWhile Char.isDigit with
    | c :: r2 =>
      if (c = '.' || c = ',') && decide (r2.takeWhile Char.isDigit ≠ []) then
        some (r2.dropWhile Char.isDigit)
      else some (c :: r2)
    | [] => some []

/-- Match of the spacing-and-number tail of the price-per-unit pattern,
the spacing, an optional dash or colon, spacing, then a required number.
When a dash or colon is consumed and no number follows, the pattern also
fails without it, since the dash itself is not a digit. -/
def spacedNum (t : List Char) : Option (List Char) :=
  match t.dropWhile isPySpace with
  | c :: r =>
    if c = '-' || c = ':' then numAfter (r.dropWhile isPySpace)
    else numAfter (c :: r)
  | [] => none

/-- The kg price-per-unit phrase alternatives of _normalize_unit_eval, in
the order of the regex alternation, with the optional [- ] of the first
alternative expanded into its three concrete forms. -/
def kgAlts : List (List Char) :=
  [("kg-preis").data, ("kg preis").data, ("kgpreis").data,
   ("price per kg").data, ("preis/kg").data, ("€/kg").data,
   ("eur/kg").data, ("/kg").data]

/-- The per-litre phrase alternatives of the second regex. -/
def lAlts : List (List Char) :=
  [("l-preis").data, ("l preis").data, ("lpreis").data,
   ("price per l").data, ("preis/l").data, ("€/l").data,
   ("eur/l").data, ("/l").data]

/-- First phrase alternative matching at the start of the input and
followed by the spacing-and-number tail; returns the remainder. -/
def tryAlts (alts : List (List Char)) (t : List Char) : Option (List Char) :=
  match alts with
  | [] => none
  | a :: rest =>
    if a.isPrefixOf t then
      match spacedNum (t.drop a.length) with
      | some r => some r
      | none => tryAlts rest t
    else tryAlts rest t

/-- re.sub of the price-per-unit pattern by the empty string, scanning
left to right; fuel bounds the number of scan steps. -/
def subPhrasesAux (alts : List (List Char)) : Nat → List Char → List Char
  | 0, s => s
  | _ + 1, [] => []
  | fuel + 1, c :: rest =>
    match tryAlts alts (c :: rest) with
    | some r => subPhrasesAux alts fuel r
    | none => c :: subPhrasesAux alts fuel rest

/-- re.sub of the price-per-unit pattern over a whole string. -/
def subPhrases (alts : List (List Char)) (s : List Char) : List Char :=
  subPhrasesAux alts (s.length + 1) s

/-- str.replace of every occurrence of a non-empty pattern, scanning left
to right and continuing after each replacement. -/
def replaceAllAux (pat rep : List Char) : Nat → List Char → List Char
  | 0, s => s
  | _ + 1, [] => []
  | fuel + 1, c :: rest =>
    if pat.isPrefixOf (c :: rest) && !pat.isEmpty then
      rep ++ replaceAllAux pat rep fuel ((c :: rest).drop pat.length)
    else c :: replaceAllAux pat rep fuel rest

/-- str.replace over a whole string. -/
def replaceAll (pat rep s : List Char) : List Char :=
  replaceAllAux pat rep (s.length + 1) s

/-- _normalize_unit_eval of prebench.py: normalize and lower-case; purely
numeric strings and currency-marked strings become empty; price-per-unit
phrases followed by a number are removed; abbreviations are canonicalized
by chained str.replace in source order; whitespace is collapsed again. -/
def normalizeUnitEval (v : PyVal) : List Char :=
  let s := normalizeEvalText v
  if s = [] then []
  else if fullNumericUnit s then []
  else if isSubstringOf (("eur").data) s || s.contains '€' then []
  else
    let s1 := subPhrases lAlts (subPhrases kgAlts s)
    let s2 := replaceAll (("piece").data) (("stk").data)
      (replaceAll (("stuck").data) (("stk").data)
        (replaceAll (("stueck").data) (("stk").data)
          (replaceAll (("stück").data) (("stk").data) s1)))
    let s3 := replaceAll (("pk").data) (("pack").data)
      (replaceAll (("packung").data) (("pack").data) s2)
    let s4 := replaceAll (("gramm").data) (("g").data)
      (replaceAll (("milliliter").data) (("ml").data)
        (replaceAll (("liter").data) (("l").data) s3))
    let s5 := replaceAll (("kilogramm").data) (("kg").data) s4
    collapseWs s5

/-- NUMERIC_TOLERANCE of prebench.py. -/
def numericTolerance : ℚ := 1 / 100

/-- UNIT_SIM_THRESHOLD of prebench.py. -/
def unitSimThreshold : ℚ := 1 / 2

/-- NAME_SIM_THRESHOLD of prebench.py (the benchmark_cloud_local variant
uses 0.5; the matcher below therefore takes the threshold as an explicit
parameter and the scorer passes this constant). -/
def nameSimThreshold : ℚ := 4 / 5

/-- One deal record as the evaluation path reads it: the three dict fields
the scorer and matcher access through dict.get. -/
structure DealEntry where
  productName : PyVal
  price : PyVal
  unit : PyVal
deriving DecidableEq

instance : Inhabited DealEntry := ⟨⟨PyVal.fnone, PyVal.fnone, PyVal.fnone⟩⟩

/-- The inner loop of _match_deals: fold over the indexed predicted items,
skipping claimed ones and keeping the first strict improvement of the
similarity, starting from (-1, 0.0). -/
def bestPred (gtName : PyVal) (preds : List (Nat × DealEntry)) (used : List Nat) :
    ℤ × ℚ :=
  preds.foldl
    (fun best pe =>
      if pe.1 ∈ used then best
      else
        let sim := nameSimilarity gtName pe.2.productName
        if sim > best.2 then ((pe.1 : ℤ), sim) else best)
    (-1, 0)

/-- The outer loop of _match_deals over indexed ground-truth items,
carrying the set of claimed predicted indices. -/
def matchAux (preds : List (Nat × DealEntry)) (th : ℚ) :
    List (Nat × DealEntry) → List Nat → List (Nat × Nat × ℚ)
  | [], _ => []
  | (gi, g) :: rest, used =>
    let best := bestPred g.productName preds used
    if best.1 ≠ -1 ∧ th ≤ best.2 then
      (gi, best.1.toNat, best.2) :: matchAux preds th rest (best.1.toNat :: used)
    else matchAux preds th rest used

/-- _match_deals of prebench.py with the name threshold as a parameter. -/
def matchDeals (gt pred : List DealEntry) (th : ℚ) : List (Nat × Nat × ℚ) :=
  matchAux pred.enum th gt.enum []

/-- Maximum of a list of rationals, None on the empty list. -/
def listMaxQ : List ℚ → Option ℚ
  | [] => none
  | x :: rest =>
    match listMaxQ rest with
    | none => some x
    | some m => some (max x m)

/-- Specification form of the inner scan, following the words of the spec:
among the predicted items not yet claimed, take the maximum name
similarity and the first item attaining it. -/
def specBest (gtName : PyVal) (preds : List (Nat × DealEntry)) (used : List Nat) :
    Option (Nat × ℚ) :=
  let cands := preds.filter (fun pe => decide (pe.1 ∉ used))
  match listMaxQ (cands.map (fun pe => nameSimilarity gtName pe.2.productName)) with
  | none => none
  | some m =>
    (cands.find? (fun pe => decide (nameSimilarity gtName pe.2.productName = m))).map
      (fun pe => (pe.1, m))

/-- Recursive characterization of the specification scan, used to bridge
the fold of the source and the maximum-plus-find form of the spec: the
leftmost item attaining the running maximum. -/
def specBestRec (gtName : PyVal) : List (Nat × DealEntry) → List Nat → Option (Nat × ℚ)
  | [], _ => none
  | pe :: rest, used =>
    if pe.1 ∈ used then specBestRec gtName rest used
    else
      match specBestRec gtName rest used with
      | none => some (pe.1, nameSimilarity gtName pe.2.productName)
      | some (j, m) =>
        if m ≤ nameSimilarity gtName pe.2.productName then
          some (pe.1, nameSimilarity gtName pe.2.productName)
        else some (j, m)

/-- Specification form of the greedy assignment, following the words of
the spec: iterate ground-truth items in order; commit the best unclaimed
predicted item whenever the maximum similarity reaches the threshold. -/
def specMatchAux (preds : List (Nat × DealEntry)) (th : ℚ) :
    List (Nat × DealEntry) → List Nat → List (Nat × Nat × ℚ)
  | [], _ => []
  | (gi, g) :: rest, used =>
    match specBest g.productName preds used with
    | some (pi, m) =>
      if th ≤ m then (gi, pi, m) :: specMatchAux preds th rest (pi :: used)
      else specMatchAux preds th rest used
    | none => specMatchAux preds th rest used

/-- The greedy assignment exactly as the spec describes it. -/
def specMatchDeals (gt pred : List DealEntry) (th : ℚ) : List (Nat × Nat × ℚ) :=
  specMatchAux pred.enum th gt.enum []

/-- price_ok of _score_prediction_lists: both sides parse and the absolute
difference is within NUMERIC_TOLERANCE. -/
def priceOk (g p : DealEntry) : Bool :=
  match parseNumber g.price, parseNumber p.price with
  | some a, some b => decide (|a - b| ≤ numericTolerance)
  | _, _ => false

/-- unit_ok of _score_prediction_lists: true when either normalized unit
is empty, else the token-set similarity reaches UNIT_SIM_THRESHOLD. -/
def unitOk (g p : DealEntry) : Bool :=
  let gu := normalizeUnitEval g.unit
  let pu := normalizeUnitEval p.unit
  if gu = [] ∨ pu = [] then true
  else decide (unitSimThreshold ≤ tokenSetSimilarity gu pu)

/-- The per-sample metrics dict of _score_prediction_lists. -/
structure SampleMetrics where
  gtTotal : Nat
  predTotal : Nat
  matchedCount : Nat
  priceCorrectCount : Nat
  unitCorrectCount : Nat
  e2eCorrectCount : Nat
  dealRetrievalRate : ℚ
  precision : ℚ
  f1 : ℚ
  overpredictionRate : ℚ
  priceReliability : ℚ
  safeDealRate : ℚ
  endToEndRecall : ℚ
  nameAccuracy : ℚ
  priceAccuracy : ℚ
  unitAccuracy : ℚ
deriving DecidableEq

/-- _score_prediction_lists of prebench.py: match, count correct prices,
units and end-to-end pairs over the matches, then derive the rates with
the zero-denominator guards of the source. -/
def scorePredictionLists (gt pred : List DealEntry) : SampleMetrics :=
  let mts := matchDeals gt pred nameSimThreshold
  let matchedCount := mts.length
  let predTotal := pred.length
  let gtTotal := gt.length
  let counts := mts.foldl
    (fun (acc : Nat × Nat × Nat) m =>
      let g := gt.getD m.1 default
      let p := pred.getD m.2.1 default
      let pOk := priceOk g p
      let uOk := unitOk g p
      (acc.1 + (if pOk then 1 else 0),
       acc.2.1 + (if uOk then 1 else 0),
       acc.2.2 + (if pOk && uOk then 1 else 0)))
    (0, 0, 0)
  let precQ : ℚ := if predTotal = 0 then 0 else (matchedCount : ℚ) / (predTotal : ℚ)
  let recQ : ℚ := if gtTotal = 0 then 0 else (matchedCount : ℚ) / (gtTotal : ℚ)
  let f1Q : ℚ :=
    if precQ + recQ = 0 then 0 else 2 * precQ * recQ / (precQ + recQ)
  { gtTotal := gtTotal
    predTotal := predTotal
    matchedCount := matchedCount
    priceCorrectCount := counts.1
    unitCorrectCount := counts.2.1
    e2eCorrectCount := counts.2.2
    dealRetrievalRate := recQ
    precision := precQ
    f1 := f1Q
    overpredictionRate :=
      if predTotal = 0 then 0 else ((predTotal : ℚ) - (matchedCount : ℚ)) / (predTotal : ℚ)
    priceReliability :=
      if matchedCount = 0 then 0 else (counts.1 : ℚ) / (matchedCount : ℚ)
    safeDealRate := if gtTotal = 0 then 0 else (counts.2.2 : ℚ) / (gtTotal : ℚ)
    endToEndRecall := if gtTotal = 0 then 0 else (counts.2.2 : ℚ) / (gtTotal : ℚ)
    nameAccuracy := recQ
    priceAccuracy := if gtTotal = 0 then 0 else (counts.1 : ℚ) / (gtTotal : ℚ)
    unitAccuracy := if gtTotal = 0 then 0 else (counts.2.1 : ℚ) / (gtTotal : ℚ) }

/-- The running accumulator of _run_model of prebench.py, restricted to
the sample counter and the per-sample rate and count sums the aggregation
arithmetic of lines 752-806 updates. -/
structure AggSums where
  n : Nat
  dealRetrievalRate : ℚ
  precision : ℚ
  f1 : ℚ
  overpredictionRate : ℚ
  priceReliability : ℚ
  safeDealRate : ℚ
  endToEndRecall : ℚ
  nameAccuracy : ℚ
  priceAccuracy : ℚ
  unitAccuracy : ℚ
  avgGtDeals : ℚ
  avgPredDeals : ℚ
deriving DecidableEq

/-- The zero accumulator. -/
def aggInit : AggSums :=
  ⟨0, 0, 0, 0, 0, 0, 0, 0, 0, 0, 0, 0, 0⟩

/-- One loop iteration of _run_model: increment the sample counter and add
every per-sample rate to its sum. -/
def aggStep (acc : AggSums) (m : SampleMetrics) : AggSums :=
  { n := acc.n + 1
    dealRetrievalRate := acc.dealRetrievalRate + m.dealRetrievalRate
    precision := acc.precision + m.precision
    f1 := acc.f1 + m.f1
    overpredictionRate := acc.overpredictionRate + m.overpredictionRate
    priceReliability := acc.priceReliability + m.priceReliability
    safeDealRate := acc.safeDealRate + m.safeDealRate
    endToEndRecall := acc.endToEndRecall + m.endToEndRecall
    nameAccuracy := acc.nameAccuracy + m.nameAccuracy
    priceAccuracy := acc.priceAccuracy + m.priceAccuracy
    unitAccuracy := acc.unitAccuracy + m.unitAccuracy
    avgGtDeals := acc.avgGtDeals + (m.gtTotal : ℚ)
    avgPredDeals := acc.avgPredDeals + (m.predTotal : ℚ) }

/-- The aggregation of _run_model: accumulate over the processed samples,
then, when at least one sample was processed, divide every sum by the
sample count.  With no samples the source skips the division and the sums
stay zero. -/
def runAggregate (ms : List SampleMetrics) : AggSums :=
  let s := ms.foldl aggStep aggInit
  if s.n = 0 then s
  else
    { s with
      dealRetrievalRate := s.dealRetrievalRate / (s.n : ℚ)
      precision := s.precision / (s.n : ℚ)
      f1 := s.f1 / (s.n : ℚ)
      overpredictionRate := s.overpredictionRate / (s.n : ℚ)
      priceReliability := s.priceReliability / (s.n : ℚ)
      safeDealRate := s.safeDealRate / (s.n : ℚ)
      endToEndRecall := s.endToEndRecall / (s.n : ℚ)
      nameAccuracy := s.nameAccuracy / (s.n : ℚ)
      priceAccuracy := s.priceAccuracy / (s.n : ℚ)
      unitAccuracy := s.unitAccuracy / (s.n : ℚ)
      avgGtDeals := s.avgGtDeals / (s.n : ℚ)
      avgPredDeals := s.avgPredDeals / (s.n : ℚ) }

/-- NAME_MATCH_THRESHOLD of benchmark_cloud_local.py. -/
def cloudNameThreshold : ℚ := 1 / 2

/-- IOU_THRESHOLD of benchmark_cloud_local.py. -/
def iouThreshold : ℚ := 1 / 2

/-- str.strip over Python whitespace. -/
def pyStrip (s : List Char) : List Char :=
  ((s.dropWhile isPySpace).reverse.dropWhile isPySpace).reverse

/-- normalize_price of benchmark_cloud_local.py: empty for falsy input,
else remove currency signs, turn commas into dots and strip. -/
def cloudNormalizePrice (v : PyVal) : List Char :=
  let falsy :=
    match v with
    | PyVal.fnone => true
    | PyVal.fnum q => decide (q = 0)
    | PyVal.fstr s => decide (s = [])
  if falsy then []
  else
    pyStrip (((fieldToChars v).filter (fun c => !(c = '€' || c = '$'))).map
      (fun c => if c = ',' then '.' else c))

/-- calculate_iou of benchmark_cloud_local.py and benchmark_ollama.py.  A
box is None for the falsy or non-numeric inputs the source turns into 0.0
through its guards, else the four coordinates. -/
def calculateIou (box1 box2 : Option (ℚ × ℚ × ℚ × ℚ)) : ℚ :=
  match box1, box2 with
  | some (ax1, ay1, ax2, ay2), some (bx1, by1, bx2, by2) =>
    let xl := max ax1 bx1
    let yt := max ay1 by1
    let xr := min ax2 bx2
    let yb := min ay2 by2
    if xr < xl ∨ yb < yt then 0
    else
      let inter := (xr - xl) * (yb - yt)
      let union := (ax2 - ax1) * (ay2 - ay1) + (bx2 - bx1) * (by2 - by1) - inter
      if 0 < union then inter / union else 0
  | _, _ => 0

/-- One record of benchmark_cloud_local.py with its name already resolved
through the product_name / name fallback and str(). -/
structure CloudEntry where
  name : List Char
  price : PyVal
  bbox : Option (ℚ × ℚ × ℚ × ℚ)
deriving DecidableEq

instance : Inhabited CloudEntry := ⟨⟨[], PyVal.fnone, none⟩⟩

/-- The counters dict of evaluate_metrics. -/
structure CloudStats where
  totalGt : Nat
  totalPred : Nat
  correctMatches : Nat
  priceCorrect : Nat
  bboxCorrect : Nat
  bboxIouSum : ℚ
deriving DecidableEq

/-- The inner loop of evaluate_metrics: best unclaimed ground-truth item
for one predicted name by SequenceMatcher ratio, strict improvement from
(0, -1). -/
def cloudBestGt (pName : List Char) (gts : List (Nat × CloudEntry))
    (matched : List Nat) : ℚ × ℤ :=
  gts.foldl
    (fun best ge =>
      if ge.1 ∈ matched then best
      else
        let score := seqRatio pName (ge.2.name.map lowerChar)
        if score > best.1 then (score, (ge.1 : ℤ)) else best)
    (0, -1)

/-- The per-sample loop body of evaluate_metrics: iterate predicted items,
claim the best-scoring ground-truth item above the strict threshold, and
update the pooled counters. -/
def cloudSample (stats : CloudStats) (sample : List CloudEntry × List CloudEntry) :
    CloudStats :=
  let pred := sample.1
  let gtl := sample.2
  let base :=
    { stats with
      totalGt := stats.totalGt + gtl.length
      totalPred := stats.totalPred + pred.length }
  (pred.foldl
    (fun (acc : CloudStats × List Nat) p =>
      let pName := p.name.map lowerChar
      let pPrice := cloudNormalizePrice p.price
      let best := cloudBestGt pName gtl.enum acc.2
      if best.1 > cloudNameThreshold then
        let gi := best.2.toNat
        let g := gtl.getD gi default
        let st := acc.1
        let st1 := { st with correctMatches := st.correctMatches + 1 }
        let st2 :=
          if pPrice = cloudNormalizePrice g.price ∧ pPrice ≠ [] then
            { st1 with priceCorrect := st1.priceCorrect + 1 }
          else st1
        let iou := calculateIou p.bbox g.bbox
        let st3 := { st2 with bboxIouSum := st2.bboxIouSum + iou }
        let st4 :=
          if iou > iouThreshold then { st3 with bboxCorrect := st3.bboxCorrect + 1 }
          else st3
        (st4, gi :: acc.2)
      else acc)
    (base, [])).1

/-- evaluate_metrics of benchmark_cloud_local.py: pool the counters over
all samples, then derive precision, recall and F1 from the pooled totals
(micro-average).  Returns the stats with the three derived rates. -/
def cloudEvaluate (predictions groundTruths : List (List CloudEntry)) :
    CloudStats × ℚ × ℚ × ℚ :=
  let stats := (predictions.zip groundTruths).foldl cloudSample ⟨0, 0, 0, 0, 0, 0⟩
  let tp := stats.correctMatches
  let fp := stats.totalPred - tp
  let fn := stats.totalGt - tp
  let p : ℚ := if 0 < tp + fp then (tp : ℚ) / ((tp : ℚ) + (fp : ℚ)) else 0
  let r : ℚ := if 0 < tp + fn then (tp : ℚ) / ((tp : ℚ) + (fn : ℚ)) else 0
  let f : ℚ := if 0 < p + r then 2 * (p * r) / (p + r) else 0
  (stats, p, r, f)

/-- The corpus precision reported by evaluate_metrics. -/
def cloudPrecision (predictions groundTruths : List (List CloudEntry)) : ℚ :=
  (cloudEvaluate predictions groundTruths).2.1

/-- A parsed JSON value. -/
inductive Json where
  | jnull : Json
  | jbool : Bool → Json
  | jnum : ℚ → Json
  | jstr : List Char → Json
  | jarr : List Json → Json
  | jobj : List ((List Char) × Json) → Json

instance : Inhabited Json := ⟨Json.jnull⟩

/-- The whitespace characters json.loads skips. -/
def isJsonWs (c : Char) : Bool :=
  c = ' ' || c = '\t' || c = '\n' || c = '\r'

/-- Skip JSON whitespace. -/
def skipJsonWs (s : List Char) : List Char :=
  s.dropWhile isJsonWs

/-- Hex digit value, if any. -/
def hexVal (c : Char) : Option Nat :=
  if '0' ≤ c && c ≤ '9' then some (c.toNat - 48)
  else if 'a' ≤ c && c ≤ 'f' then some (c.toNat - 87)
  else if 'A' ≤ c && c ≤ 'F' then some (c.toNat - 55)
  else none

/-- Body of a JSON string after the opening quote: content and remainder
after the closing quote.  Escapes are the standard single-character ones
plus basic-plane unicode escapes; surrogate pairing and strict-mode
control-character rejection are not modeled, no embedded input needs
them. -/
def parseJString : List Char → Option (List Char × List Char)
  | [] => none
  | '"' :: rest => some ([], rest)
  | '\\' :: e :: rest =>
    match e with
    | '"' => (parseJString rest).map (fun p => ('"' :: p.1, p.2))
    | '\\' => (parseJString rest).map (fun p => ('\\' :: p.1, p.2))
    | '/' => (parseJString rest).map (fun p => ('/' :: p.1, p.2))
    | 'b' => (parseJString rest).map (fun p => (Char.ofNat 8 :: p.1, p.2))
    | 'f' => (parseJString rest).map (fun p => (Char.ofNat 12 :: p.1, p.2))
    | 'n' => (parseJString rest).map (fun p => ('\n' :: p.1, p.2))
    | 'r' => (parseJString rest).map (fun p => ('\r' :: p.1, p.2))
    | 't' => (parseJString rest).map (fun p => ('\t' :: p.1, p.2))
    | 'u' =>
      match rest with
      | h1 :: h2 :: h3 :: h4 :: r2 =>
        match hexVal h1, hexVal h2, hexVal h3, hexVal h4 with
        | some a, some b, some c, some d =>
          (parseJString r2).map
            (fun p => (Char.ofNat (((a * 16 + b) * 16 + c) * 16 + d) :: p.1, p.2))
        | _, _, _, _ => none
      | _ => none
    | _ => none
  | c :: rest => (parseJString rest).map (fun p => (c :: p.1, p.2))

/-- JSON number at the start of the input: optional sign, integer part
without a leading zero, optional fraction, optional exponent. -/
def parseJNum (t : List Char) : Option (ℚ × List Char) :=
  let core : List Char → Option (ℚ × List Char) := fun u =>
    let ds := u.takeWhile Char.isDigit
    if ds = [] then none
    else if 1 < ds.length ∧ ds.headD ' ' = '0' then none
    else
      let afterInt := u.dropWhile Char.isDigit
      let intVal : ℚ := (digitsToNat ds : ℚ)
      let fracStep : Option (ℚ × List Char) :=
        match afterInt with
        | '.' :: r2 =>
          let fs := r2.takeWhile Char.isDigit
          if fs = [] then none
          else
            some (intVal + (digitsToNat fs : ℚ) / (10 : ℚ) ^ fs.length,
              r2.dropWhile Char.isDigit)
        | _ => some (intVal, afterInt)
      match fracStep with
      | none => none
      | some (v, r3) =>
        match r3 with
        | 'e' :: r4 => expTail v r4
        | 'E' :: r4 => expTail v r4
        | _ => some (v, r3)
  match t with
  | '-' :: r => (core r).map (fun p => (-p.1, p.2))
  | _ => core t
where
  expTail (v : ℚ) (r : List Char) : Option (ℚ × List Char) :=
    let signed : Bool × List Char :=
      match r with
      | '+' :: r2 => (false, r2)
      | '-' :: r2 => (true, r2)
      | _ => (false, r)
    let es := signed.2.takeWhile Char.isDigit
    if es = [] then none
    else
      let e : ℚ := (10 : ℚ) ^ (digitsToNat es)
      some (if signed.1 then v / e else v * e, signed.2.dropWhile Char.isDigit)

mutual

/-- JSON value at the start of the input (leading whitespace already
skipped); fuel bounds the number of parsing events. -/
def parseJValue : Nat → List Char → Option (Json × List Char)
  | 0, _ => none
  | fuel + 1, t =>
    match t with
    | '{' :: r =>
      match skipJsonWs r with
      | '}' :: r2 => some (Json.jobj [], r2)
      | r1 =>
        match parseJMembers fuel r1 with
        | some (ms, r2) => some (Json.jobj ms, r2)
        | none => none
    | '[' :: r =>
      match skipJsonWs r with
      | ']' :: r2 => some (Json.jarr [], r2)
      | r1 =>
        match parseJItems fuel r1 with
        | some (vs, r2) => some (Json.jarr vs, r2)
        | none => none
    | '"' :: r => (parseJString r).map (fun p => (Json.jstr p.1, p.2))
    | 't' :: 'r' :: 'u' :: 'e' :: r => some (Json.jbool true, r)
    | 'f' :: 'a' :: 'l' :: 's' :: 'e' :: r => some (Json.jbool false, r)
    | 'n' :: 'u' :: 'l' :: 'l' :: r => some (Json.jnull, r)
    | _ => (parseJNum t).map (fun p => (Json.jnum p.1, p.2))

/-- Non-empty comma-separated array items up to the closing bracket. -/
def parseJItems : Nat → List Char → Option (List Json × List Char)
  | 0, _ => none
  | fuel + 1, t =>
    match parseJValue fuel t with
    | none => none
    | some (v, r) =>
      match skipJsonWs r with
      | ',' :: r2 =>
        match parseJItems fuel (skipJsonWs r2) with
        | some (vs, r3) => some (v :: vs, r3)
        | none => none
      | ']' :: r2 => some ([v], r2)
      | _ => none

/-- Non-empty comma-separated object members up to the closing brace. -/
def parseJMembers : Nat → List Char → Option (List ((List Char) × Json) × List Char)
  | 0, _ => none
  | fuel + 1, t =>
    match t with
    | '"' :: r =>
      match parseJString r with
      | none => none
      | some (k, r1) =>
        match skipJsonWs r1 with
        | ':' :: r2 =>
          match parseJValue fuel (skipJsonWs r2) with
          | none => none
          | some (v, r3) =>
            match skipJsonWs r3 with
            | ',' :: r4 =>
              match parseJMembers fuel (skipJsonWs r4) with
              | some (ms, r5) => some ((k, v) :: ms, r5)
              | none => none
            | '}' :: r4 => some ([(k, v)], r4)
            | _ => none
        | _ => none
    | _ => none

end

/-- json.loads: parse one value and require only trailing whitespace. -/
def jsonLoads (s : List Char) : Option Json :=
  match parseJValue (2 * s.length + 2) (skipJsonWs s) with
  | some (v, r) => if skipJsonWs r = [] then some v else none
  | none => none

/-- Matches of a non-greedy bracket pair regex scanned left to right: each
candidate runs from the next opening character to the first closing
character after it, and scanning resumes after the match.  When an opening
character has no closing character after it, no further match exists. -/
def scanCands (openC closeC : Char) : Nat → List Char → List (List Char)
  | 0, _ => []
  | fuel + 1, t =>
    match t.dropWhile (fun c => !(c = openC)) with
    | [] => []
    | _ :: r =>
      let inner := r.takeWhile (fun c => !(c = closeC))
      match r.dropWhile (fun c => !(c = closeC)) with
      | [] => []
      | _ :: r2 => (openC :: inner ++ [closeC]) :: scanCands openC closeC fuel r2

/-- First candidate that json.loads accepts. -/
def firstParse : List (List Char) → Option Json
  | [] => none
  | c :: rest =>
    match jsonLoads c with
    | some v => some v
    | none => firstParse rest

/-- _parse_json_from_text of prebench.py: empty text gives None; then
json.loads on the whole text; then the non-greedy bracket candidates,
arrays first then objects, tried in reversed order. -/
def parseJsonFromText (t : List Char) : Option Json :=
  if t = [] then none
  else
    match jsonLoads t with
    | some v => some v
    | none =>
      let cands :=
        scanCands '[' ']' (t.length + 1) t ++ scanCands '{' '}' (t.length + 1) t
      firstParse cands.reverse

/-- Whether a value is a JSON object. -/
def isJObj : Json → Bool
  | Json.jobj _ => true
  | _ => false

/-- _ensure_list of prebench.py: a list keeps its dict elements, a dict is
wrapped as a one-element list, anything else becomes an empty list. -/
def ensureList : Option Json → List Json
  | some (Json.jarr l) => l.filter isJObj
  | some (Json.jobj o) => [Json.jobj o]
  | _ => []

/-- Second definition, following the words of the spec for the recovery
chain: strip leading and trailing Markdown code fences, an opening fence
with an optional language tag and a closing fence. -/
def stripFences (t : List Char) : List Char :=
  let t1 := pyStrip t
  let t2 :=
    if ("```").data.isPrefixOf t1 then
      (t1.drop 3).dropWhile (fun c => isTokenChar c)
    else t1
  let t3 := pyStrip t2
  let t4 :=
    if ("```").data.isSuffixOf t3 then t3.take (t3.length - 3)
    else t3
  pyStrip t4

/-- Second definition, following the words of the spec: the last
well-formed bracketed or braced substring that parses as JSON, taking the
latest start position and, at that position, the longest slice. -/
def lastWellFormed (t : List Char) : Option Json :=
  (List.range t.length).reverse.findSome? (fun i =>
    if t.getD i ' ' = '[' ∨ t.getD i ' ' = '{' then
      (List.range (t.length - i + 1)).reverse.findSome?
        (fun len => jsonLoads ((t.drop i).take len))
    else none)

/-- Second definition, following the words of the spec for the whole
recovery chain: parse as-is, then with fences stripped, then the last
well-formed bracketed substring; a single object is wrapped as a
one-element list; total failure is an empty list. -/
def specJsonRecover (t : List Char) : List Json :=
  let step : Option Json :=
    match jsonLoads t with
    | some v => some v
    | none =>
      match jsonLoads (stripFences t) with
      | some v => some v
      | none => lastWellFormed t
  match step with
  | some (Json.jarr l) => l
  | some v => [v]
  | none => []

theorem foldl_inv {α β : Type} {P : α → Prop} (f : α → β → α) :
    ∀ (l : List β) (init : α), P init →
      (∀ acc x, x ∈ l → P acc → P (f acc x)) → P (l.foldl f init)
  | [], init, h0, _ => h0
  | x :: rest, init, h0, hstep =>
    foldl_inv f rest (f init x) (hstep init x (by simp) h0)
      (fun acc y hy hacc => hstep acc y (by simp [hy]) hacc)

theorem bestPred_spec_mem (gtName : PyVal) (preds : List (Nat × DealEntry))
    (used : List Nat) :
    (bestPred gtName preds used).1 = -1 ∨
      (0 ≤ (bestPred gtName preds used).1 ∧
        (bestPred gtName preds used).1.toNat ∉ used) := by
  unfold bestPred
  apply foldl_inv
    (P := fun acc : ℤ × ℚ => acc.1 = -1 ∨ (0 ≤ acc.1 ∧ acc.1.toNat ∉ used))
  · exact Or.inl rfl
  · intro acc pe _ hacc
    by_cases hmem : pe.1 ∈ used
    · simpa [hmem] using hacc
    · simp only [hmem, if_false]
      by_cases hgt : nameSimilarity gtName pe.2.productName > acc.2
      · simp only [hgt, if_true]
        exact Or.inr ⟨Int.natCast_nonneg pe.1, by simpa using hmem⟩
      · simpa [hgt] using hacc

theorem matchAux_pred_nodup (preds : List (Nat × DealEntry)) (th : ℚ) :
    ∀ (gtl : List (Nat × DealEntry)) (used : List Nat),
      ((matchAux preds th gtl used).map (fun m => m.2.1)).Nodup ∧
        ∀ x ∈ (matchAux preds th gtl used).map (fun m => m.2.1), x ∉ used := by
  intro gtl
  induction gtl with
  | nil => intro used; simp [matchAux]
  | cons ge rest ih =>
    intro used
    obtain ⟨gi, g⟩ := ge
    simp only [matchAux]
    by_cases hc :
        (bestPred g.productName preds used).1 ≠ -1 ∧
          th ≤ (bestPred g.productName preds used).2
    · rw [if_pos hc]
      simp only [List.map_cons]
      have hnotmem :
          (bestPred g.productName preds used).1.toNat ∉ used := by
        rcases bestPred_spec_mem g.productName preds used with h | h
        · exact absurd h hc.1
        · exact h.2
      have hrest := ih ((bestPred g.productName preds used).1.toNat :: used)
      refine ⟨List.nodup_cons.mpr ⟨?_, hrest.1⟩, ?_⟩
      · intro hmem
        exact (hrest.2 _ hmem) (List.mem_cons_self _ _)
      · intro x hx
        rcases List.mem_cons.mp hx with hx | hx
        · exact hx ▸ hnotmem
        · exact fun hxu => (hrest.2 x hx) (List.mem_cons_of_mem _ hxu)
    · rw [if_neg hc]
      have hrest := ih used
      exact ⟨hrest.1, hrest.2⟩

theorem matchAux_gt_sublist (preds : List (Nat × DealEntry)) (th : ℚ) :
    ∀ (gtl : List (Nat × DealEntry)) (used : List Nat),
      ((matchAux preds th gtl used).map (fun m => m.1)).Sublist
        (gtl.map (fun ge => ge.1)) := by
  intro gtl
  induction gtl with
  | nil => intro used; simp [matchAux]
  | cons ge rest ih =>
    intro used
    obtain ⟨gi, g⟩ := ge
    simp only [matchAux]
    by_cases hc :
        (bestPred g.productName preds used).1 ≠ -1 ∧
          th ≤ (bestPred g.productName preds used).2
    · rw [if_pos hc]
      simpa using (ih _).cons₂ gi
    · rw [if_neg hc]
      exact (ih used).cons gi

/-- C1: for every ground-truth list and predicted list (and any name
threshold), the Match triples returned by the Matcher contain each
ground-truth index at most once and each predicted index at most once, a
partial bijection over the matched subset; in particular two
identically-named ground-truth items resolve to two distinct predicted
items. -/
theorem matchDeals_partial_bijection (gt pred : List DealEntry) (th : ℚ) :
    ((matchDeals gt pred th).map (fun m => m.1)).Nodup ∧
      ((matchDeals gt pred th).map (fun m => m.2.1)).Nodup := by
  constructor
  · have hsub := matchAux_gt_sublist pred.enum th gt.enum []
    have hnodup : (gt.enum.map (fun ge => ge.1)).Nodup := by
      have := List.enum_map_fst gt
      simp only [Function.comp] at this
      rw [show (fun ge : Nat × DealEntry => ge.1) = Prod.fst from rfl, this]
      exact List.nodup_range _
    exact hnodup.sublist hsub
  · exact (matchAux_pred_nodup pred.enum th gt.enum []).1

theorem nameSimilarity_nonneg (a b : PyVal) : 0 ≤ nameSimilarity a b := by
  simp only [nameSimilarity]
  apply le_max_of_le_right
  apply le_max_of_le_right
  split <;> norm_num

theorem listMaxQ_eq_none_iff (l : List ℚ) : listMaxQ l = none ↔ l = [] := by
  cases l with
  | nil => simp [listMaxQ]
  | cons x rest =>
    simp only [listMaxQ]
    cases listMaxQ rest <;> simp

theorem listMaxQ_mem : ∀ (l : List ℚ) (m : ℚ), listMaxQ l = some m → m ∈ l := by
  intro l
  induction l with
  | nil => intro m h; simp [listMaxQ] at h
  | cons x rest ih =>
    intro m h
    simp only [listMaxQ] at h
    cases hrec : listMaxQ rest with
    | none =>
      rw [hrec] at h
      simp only [Option.some.injEq] at h
      simp [h]
    | some m2 =>
      rw [hrec] at h
      simp only [Option.some.injEq] at h
      rcases max_choice x m2 with hc | hc
      · rw [hc] at h
        simp [h]
      · rw [hc] at h
        rw [← h]
        exact List.mem_cons_of_mem x (ih m2 hrec)

theorem listMaxQ_cons_none (x : ℚ) (rest : List ℚ) (h : listMaxQ rest = none) :
    listMaxQ (x :: rest) = some x := by
  simp [listMaxQ, h]

theorem listMaxQ_cons_some (x : ℚ) (rest : List ℚ) (m : ℚ)
    (h : listMaxQ rest = some m) : listMaxQ (x :: rest) = some (max x m) := by
  simp [listMaxQ, h]

theorem specBestRec_skip (gtName : PyVal) (used : List Nat) :
    ∀ preds : List (Nat × DealEntry),
      specBestRec gtName preds used =
        specBestRec gtName (preds.filter (fun q => decide (q.1 ∉ used))) [] := by
  intro preds
  induction preds with
  | nil => rfl
  | cons pe rest ih =>
    by_cases hmem : pe.1 ∈ used
    · simp [specBestRec, hmem, List.filter_cons, ih]
    · have hd : (decide (pe.1 ∉ used)) = true := by simpa using hmem
      simp only [List.filter_cons, hd, if_true]
      simp [specBestRec, hmem, ih]

theorem specBest_as_bind (gtName : PyVal) (preds : List (Nat × DealEntry))
    (used : List Nat) :
    specBest gtName preds used =
      (listMaxQ ((preds.filter (fun q => decide (q.1 ∉ used))).map
          (fun pe => nameSimilarity gtName pe.2.productName))).bind
        (fun m =>
          ((preds.filter (fun q => decide (q.1 ∉ used))).find?
              (fun pe => decide (nameSimilarity gtName pe.2.productName = m))).map
            (fun pe => (pe.1, m))) := by
  simp only [specBest]
  cases listMaxQ ((preds.filter (fun q => decide (q.1 ∉ used))).map
      (fun pe => nameSimilarity gtName pe.2.productName)) <;> rfl

theorem specBest_eq_rec_aux (f : (Nat × DealEntry) → ℚ) :
    ∀ l : List (Nat × DealEntry),
      (listMaxQ (l.map f)).bind
          (fun m => (l.find? (fun pe => decide (f pe = m))).map (fun pe => (pe.1, m)))
        = l.foldr
            (fun pe acc =>
              acc.elim (some (pe.1, f pe))
                (fun jm => if jm.2 ≤ f pe then some (pe.1, f pe) else some jm))
            none := by
  intro l
  induction l with
  | nil => rfl
  | cons pe rest ih =>
    simp only [List.map_cons, List.foldr_cons]
    cases hrec : listMaxQ (rest.map f) with
    | none =>
      have hrest2 : rest = [] := by
        have h := (listMaxQ_eq_none_iff _).mp hrec
        exact List.map_eq_nil_iff.mp h
      subst hrest2
      simp only [listMaxQ, Option.some_bind, List.foldr_nil, Option.elim_none]
      rw [List.find?_cons_of_pos _ (by simp)]
      rfl
    | some m =>
      rw [hrec, Option.some_bind] at ih
      rw [listMaxQ_cons_some _ _ _ hrec, Option.some_bind]
      have hmem : m ∈ rest.map f := listMaxQ_mem _ m hrec
      have hfind : (rest.find? (fun pe => decide (f pe = m))).isSome := by
        rcases List.mem_map.mp hmem with ⟨pe2, hpe2, hfe⟩
        exact List.find?_isSome.mpr ⟨pe2, hpe2, by simp [hfe]⟩
      rcases Option.isSome_iff_exists.mp hfind with ⟨pe2, hpe2⟩
      rw [hpe2] at ih
      by_cases hle : m ≤ f pe
      · rw [max_eq_left hle]
        rw [List.find?_cons_of_pos _ (by simp)]
        rw [← ih]
        simp [hle]
      · have hlt : f pe < m := lt_of_not_le hle
        rw [max_eq_right (le_of_lt hlt)]
        rw [List.find?_cons_of_neg _ (by simp [ne_of_lt hlt])]
        rw [hpe2, ← ih]
        simp [hle]

theorem specBest_eq_rec (gtName : PyVal) (preds : List (Nat × DealEntry))
    (used : List Nat) :
    specBest gtName preds used = specBestRec gtName preds used := by
  rw [specBestRec_skip, specBest_as_bind,
    specBest_eq_rec_aux (fun pe => nameSimilarity gtName pe.2.productName)]
  generalize preds.filter (fun q => decide (q.1 ∉ used)) = l
  induction l with
  | nil => rfl
  | cons pe rest ih =>
    simp only [List.foldr_cons, ih, specBestRec, List.not_mem_nil, if_false]
    cases specBestRec gtName rest [] with
    | none => rfl
    | some jm => obtain ⟨j, m⟩ := jm; rfl

theorem specBestRec_nonneg (gtName : PyVal) :
    ∀ (preds : List (Nat × DealEntry)) (used : List Nat) (jm : Nat × ℚ),
      specBestRec gtName preds used = some jm → 0 ≤ jm.2 := by
  intro preds
  induction preds with
  | nil => intro used jm h; simp [specBestRec] at h
  | cons pe rest ih =>
    intro used jm h
    simp only [specBestRec] at h
    by_cases hmem : pe.1 ∈ used
    · rw [if_pos hmem] at h
      exact ih used jm h
    · rw [if_neg hmem] at h
      cases hrec : specBestRec gtName rest used with
      | none =>
        rw [hrec] at h
        simp only [Option.some.injEq] at h
        rw [← h]
        exact nameSimilarity_nonneg _ _
      | some jm2 =>
        rw [hrec] at h
        by_cases hle : jm2.2 ≤ nameSimilarity gtName pe.2.productName
        · obtain ⟨j2, m2⟩ := jm2
          simp only [hle, if_true, Option.some.injEq] at h
          rw [← h]
          exact nameSimilarity_nonneg _ _
        · obtain ⟨j2, m2⟩ := jm2
          simp only [hle, if_false, Option.some.injEq] at h
          rw [← h]
          exact ih used _ hrec

theorem bestPred_eq_rec (gtName : PyVal) (used : List Nat) :
    ∀ (preds : List (Nat × DealEntry)) (b0 : ℤ) (s0 : ℚ),
      preds.foldl
        (fun best pe =>
          if pe.1 ∈ used then best
          else
            let sim := nameSimilarity gtName pe.2.productName
            if sim > best.2 then ((pe.1 : ℤ), sim) else best)
        (b0, s0)
      = (match specBestRec gtName preds used with
         | none => (b0, s0)
         | some im => if s0 < im.2 then ((im.1 : ℤ), im.2) else (b0, s0)) := by
  intro preds
  induction preds with
  | nil => intro b0 s0; rfl
  | cons pe rest ih =>
    intro b0 s0
    by_cases hmem : pe.1 ∈ used
    · simp only [List.foldl_cons, hmem, if_true, specBestRec]
      exact ih b0 s0
    · simp only [List.foldl_cons, hmem, if_false]
      cases hrec : specBestRec gtName rest used with
      | none =>
        have hspec : specBestRec gtName (pe :: rest) used =
            some (pe.1, nameSimilarity gtName pe.2.productName) := by
          simp [specBestRec, hmem, hrec]
        rw [hspec]
        by_cases hgt : s0 < nameSimilarity gtName pe.2.productName
        · rw [if_pos (show nameSimilarity gtName pe.2.productName > (b0, s0).2 from hgt),
            ih, hrec]
          simp [hgt]
        · rw [if_neg (show ¬ nameSimilarity gtName pe.2.productName > (b0, s0).2 from hgt),
            ih, hrec]
          simp [hgt]
      | some jm =>
        obtain ⟨j, m⟩ := jm
        by_cases hle : m ≤ nameSimilarity gtName pe.2.productName
        · have hspec : specBestRec gtName (pe :: rest) used =
              some (pe.1, nameSimilarity gtName pe.2.productName) := by
            simp [specBestRec, hmem, hrec, hle]
          rw [hspec]
          by_cases hgt : s0 < nameSimilarity gtName pe.2.productName
          · rw [if_pos (show nameSimilarity gtName pe.2.productName > (b0, s0).2 from hgt),
              ih, hrec]
            have h1 : ¬ (nameSimilarity gtName pe.2.productName < m) := not_lt.mpr hle
            simp [h1, hgt]
          · rw [if_neg (show ¬ nameSimilarity gtName pe.2.productName > (b0, s0).2 from hgt),
              ih, hrec]
            have h1 : ¬ (s0 < m) := fun hc => hgt (lt_of_lt_of_le hc hle)
            simp [h1, hgt]
        · have hlt : nameSimilarity gtName pe.2.productName < m := lt_of_not_le hle
          have hspec : specBestRec gtName (pe :: rest) used = some (j, m) := by
            simp [specBestRec, hmem, hrec, hle]
          rw [hspec]
          by_cases hgt : s0 < nameSimilarity gtName pe.2.productName
          · rw [if_pos (show nameSimilarity gtName pe.2.productName > (b0, s0).2 from hgt),
              ih, hrec]
            have h2 : s0 < m := lt_trans hgt hlt
            simp [hlt, h2]
          · rw [if_neg (show ¬ nameSimilarity gtName pe.2.productName > (b0, s0).2 from hgt),
              ih, hrec]

theorem specMatchAux_cons_some (preds : List (Nat × DealEntry)) (th : ℚ)
    (gi : Nat) (g : DealEntry) (rest : List (Nat × DealEntry)) (used : List Nat)
    (pi : Nat) (m : ℚ) (h : specBest g.productName preds used = some (pi, m)) :
    specMatchAux preds th ((gi, g) :: rest) used =
      if th ≤ m then (gi, pi, m) :: specMatchAux preds th rest (pi :: used)
      else specMatchAux preds th rest used := by
  simp only [specMatchAux, h]

theorem specMatchAux_cons_none (preds : List (Nat × DealEntry)) (th : ℚ)
    (gi : Nat) (g : DealEntry) (rest : List (Nat × DealEntry)) (used : List Nat)
    (h : specBest g.productName preds used = none) :
    specMatchAux preds th ((gi, g) :: rest) used =
      specMatchAux preds th rest used := by
  simp only [specMatchAux, h]

theorem matchAux_eq_spec (preds : List (Nat × DealEntry)) (th : ℚ) (hth : 0 < th) :
    ∀ (gtl : List (Nat × DealEntry)) (used : List Nat),
      matchAux preds th gtl used = specMatchAux preds th gtl used := by
  intro gtl
  induction gtl with
  | nil => intro used; rfl
  | cons ge rest ih =>
    intro used
    obtain ⟨gi, g⟩ := ge
    have hbp : bestPred g.productName preds used =
        (match specBestRec g.productName preds used with
         | none => ((-1 : ℤ), (0 : ℚ))
         | some im => if (0 : ℚ) < im.2 then ((im.1 : ℤ), im.2) else ((-1 : ℤ), (0 : ℚ))) :=
      bestPred_eq_rec g.productName used preds (-1) 0
    simp only [matchAux]
    cases hrec : specBestRec g.productName preds used with
    | none =>
      rw [hrec] at hbp
      simp only [] at hbp
      rw [hbp, specMatchAux_cons_none preds th gi g rest used
        (by rw [specBest_eq_rec, hrec])]
      simp only [ne_eq, not_true_eq_false, false_and, if_false]
      exact ih used
    | some im =>
      obtain ⟨i, m⟩ := im
      rw [hrec] at hbp
      simp only [] at hbp
      rw [specMatchAux_cons_some preds th gi g rest used i m
        (by rw [specBest_eq_rec, hrec])]
      have hm0 : 0 ≤ m := specBestRec_nonneg _ _ _ _ hrec
      by_cases hmpos : (0 : ℚ) < m
      · rw [if_pos hmpos] at hbp
        rw [hbp]
        by_cases hthm : th ≤ m
        · have hg : ((i : ℤ), m).1 ≠ -1 ∧ th ≤ ((i : ℤ), m).2 := by
            constructor
            · simp only []
              omega
            · exact hthm
          rw [if_pos hg, if_pos hthm]
          have htn : ((i : ℤ), m).1.toNat = i := rfl
          rw [htn]
          exact congrArg _ (ih (i :: used))
        · have hg : ¬ (((i : ℤ), m).1 ≠ -1 ∧ th ≤ ((i : ℤ), m).2) := by
            intro hc
            exact hthm hc.2
          rw [if_neg hg, if_neg hthm]
          exact ih used
      · have hmz : m = 0 := le_antisymm (not_lt.mp hmpos) hm0
        rw [if_neg hmpos] at hbp
        rw [hbp]
        have hg : ¬ (((-1 : ℤ), (0 : ℚ)).1 ≠ -1 ∧ th ≤ ((-1 : ℤ), (0 : ℚ)).2) := by
          simp
        rw [if_neg hg]
        have hthm : ¬ th ≤ m := by
          rw [hmz]
          exact not_le.mpr hth
        rw [if_neg hthm]
        exact ih used

/-- C2 amended: for every gt list, pred list and positive name threshold
(the observed configurations use 0.5 and 0.8), the Matcher computes
exactly the greedy assignment the spec describes; at a non-positive
threshold the source still drops a ground-truth item whose best available
similarity is zero, where the spec text would commit it. -/
theorem matchDeals_eq_specGreedy (gt pred : List DealEntry) (th : ℚ)
    (hth : 0 < th) : matchDeals gt pred th = specMatchDeals gt pred th :=
  matchAux_eq_spec pred.enum th hth gt.enum []

/-- Witness for the amended C2 theorem at a concrete configuration. -/
theorem matchDeals_eq_specGreedy_witness :
    (0 : ℚ) < 4 / 5 ∧
      matchDeals [⟨PyVal.fstr ("Milch").data, PyVal.fnone, PyVal.fnone⟩]
          [⟨PyVal.fstr ("Milch").data, PyVal.fnone, PyVal.fnone⟩] (4 / 5) =
        specMatchDeals [⟨PyVal.fstr ("Milch").data, PyVal.fnone, PyVal.fnone⟩]
          [⟨PyVal.fstr ("Milch").data, PyVal.fnone, PyVal.fnone⟩] (4 / 5) :=
  ⟨by norm_num, matchDeals_eq_specGreedy _ _ _ (by norm_num)⟩

/-- C2 counterexample: at name threshold 0 the source leaves a ground-truth
item unmatched when every similarity is zero, while the greedy assignment
of the spec commits the pair, since the maximum 0 reaches the threshold. -/
theorem matchDeals_ne_specGreedy_at_zero :
    matchDeals [⟨PyVal.fstr ("abcde").data, PyVal.fnone, PyVal.fnone⟩]
        [⟨PyVal.fstr ("fghij").data, PyVal.fnone, PyVal.fnone⟩] 0 ≠
      specMatchDeals [⟨PyVal.fstr ("abcde").data, PyVal.fnone, PyVal.fnone⟩]
        [⟨PyVal.fstr ("fghij").data, PyVal.fnone, PyVal.fnone⟩] 0 := by
  decide

theorem commonPrefixLen_le_left : ∀ a b : List Char, commonPrefixLen a b ≤ a.length
  | [], _ => by simp [commonPrefixLen]
  | _ :: _, [] => by simp [commonPrefixLen]
  | c :: cs, d :: ds => by
    simp only [commonPrefixLen, List.length_cons]
    by_cases h : c = d
    · simp only [h, if_true]
      exact Nat.succ_le_succ (commonPrefixLen_le_left cs ds)
    · simp [h]

theorem commonPrefixLen_self : ∀ s : List Char, commonPrefixLen s s = s.length
  | [] => rfl
  | c :: cs => by simp [commonPrefixLen, commonPrefixLen_self cs]

theorem findLongestMatch_self (s : List Char) (hs : s ≠ []) :
    findLongestMatch s s = (0, 0, s.length) := by
  unfold findLongestMatch
  obtain ⟨n, hn⟩ : ∃ n, s.length = n + 1 := by
    cases s with
    | nil => exact absurd rfl hs
    | cons c cs => exact ⟨cs.length, rfl⟩
  have hkeepInner : ∀ (i : Nat) (l : List Nat) (init : Nat × Nat × Nat),
      init.2.2 = s.length →
      l.foldl
        (fun best j =>
          let k := commonPrefixLen (s.drop i) (s.drop j)
          if k > best.2.2 then (i, j, k) else best)
        init = init := by
    intro i l init hinit
    apply foldl_inv (P := fun best => best = init)
    · rfl
    · intro acc j _ hacc
      show (if commonPrefixLen (s.drop i) (s.drop j) > acc.2.2 then
          (i, j, commonPrefixLen (s.drop i) (s.drop j)) else acc) = init
      rw [hacc]
      have hk : commonPrefixLen (s.drop i) (s.drop j) ≤ s.length :=
        le_trans (commonPrefixLen_le_left _ _) (by simp)
      have hng : ¬ commonPrefixLen (s.drop i) (s.drop j) > init.2.2 := by
        rw [hinit]
        exact not_lt.mpr hk
      simp only [hng, if_false]
  have houter : ∀ (jl : List Nat) (l : List Nat) (init : Nat × Nat × Nat),
      init.2.2 = s.length →
      l.foldl
        (fun best i =>
          jl.foldl
            (fun best j =>
              let k := commonPrefixLen (s.drop i) (s.drop j)
              if k > best.2.2 then (i, j, k) else best)
            best)
        init = init := by
    intro jl l init hinit
    apply foldl_inv (P := fun best => best = init)
    · rfl
    · intro acc i _ hacc
      rw [hacc]
      exact hkeepInner i jl init hinit
  have hfirst : ∀ l : List Nat,
      ((0 :: l).foldl
        (fun best j =>
          let k := commonPrefixLen (s.drop 0) (s.drop j)
          if k > best.2.2 then (0, j, k) else best)
        (0, 0, 0)) = (0, 0, s.length) := by
    intro l
    rw [List.foldl_cons]
    have hstep : (if commonPrefixLen (s.drop 0) (s.drop 0) >
          ((0, 0, 0) : Nat × Nat × Nat).2.2 then
          ((0 : Nat), (0 : Nat), commonPrefixLen (s.drop 0) (s.drop 0))
        else ((0, 0, 0) : Nat × Nat × Nat)) = (0, 0, s.length) := by
      rw [List.drop_zero, commonPrefixLen_self]
      have hpos : s.length > 0 := by
        rw [hn]
        exact Nat.succ_pos n
      simp [hpos]
    show l.foldl _ (if commonPrefixLen (s.drop 0) (s.drop 0) >
        ((0, 0, 0) : Nat × Nat × Nat).2.2 then
        ((0 : Nat), (0 : Nat), commonPrefixLen (s.drop 0) (s.drop 0))
      else ((0, 0, 0) : Nat × Nat × Nat)) = (0, 0, s.length)
    rw [hstep]
    exact hkeepInner 0 l (0, 0, s.length) rfl
  have hrange : List.range s.length = 0 :: (List.range n).map Nat.succ := by
    rw [hn, List.range_succ_eq_map]
  rw [hrange, List.foldl_cons, hfirst]
  exact houter _ _ (0, 0, s.length) rfl

theorem matchingTotalAux_nil (fuel : Nat) : matchingTotalAux fuel [] [] = 0 := by
  cases fuel with
  | zero => rfl
  | succ f => rfl

theorem matchingTotalAux_self (fuel : Nat) (s : List Char) :
    matchingTotalAux (fuel + 1) s s = s.length := by
  by_cases hs : s = []
  · subst hs
    exact matchingTotalAux_nil _
  · simp only [matchingTotalAux, findLongestMatch_self s hs]
    have hlen : s.length ≠ 0 := by
      cases s with
      | nil => exact absurd rfl hs
      | cons c cs => simp
    simp only [hlen, if_false]
    rw [List.take_zero, matchingTotalAux_nil]
    have hdrop : s.drop (0 + s.length) = [] := by
      rw [Nat.zero_add]
      exact List.drop_length s
    rw [hdrop, matchingTotalAux_nil]
    omega

theorem seqRatio_self (s : List Char) : seqRatio s s = 1 := by
  by_cases hs : s = []
  · subst hs
    rfl
  · have hlen : s.length ≠ 0 := by
      cases s with
      | nil => exact absurd rfl hs
      | cons c cs => simp
    simp only [seqRatio, matchingTotal, matchingTotalAux_self]
    have hsum : ¬ (s.length + s.length = 0) := by omega
    simp only [hsum, if_false]
    have hq : ((s.length : ℚ)) ≠ 0 := Nat.cast_ne_zero.mpr hlen
    field_simp
    ring

theorem tokenSetSimilarity_self (t : List Char) : tokenSetSimilarity t t = 1 := by
  simp only [tokenSetSimilarity]
  by_cases h : tokenSet t = ∅
  · simp [h]
  · simp only [h, and_false, false_and, if_false, and_self, or_self]
    rw [Finset.inter_self, Finset.union_self]
    have hc : ((tokenSet t).card : ℚ) ≠ 0 := by
      simp only [ne_eq, Nat.cast_eq_zero, Finset.card_eq_zero]
      exact h
    simp [div_self hc, h]

theorem tokenSetSimilarity_comm (a b : List Char) :
    tokenSetSimilarity a b = tokenSetSimilarity b a := by
  simp only [tokenSetSimilarity]
  by_cases ha : tokenSet a = ∅ <;> by_cases hb : tokenSet b = ∅ <;>
    simp [ha, hb, Finset.inter_comm, Finset.union_comm]

theorem nameSimilarity_self (a : PyVal) : nameSimilarity a a = 1 := by
  simp only [nameSimilarity, seqRatio_self, tokenSetSimilarity_self]
  have hsub : (if minNameLen ≤ (normalizeEvalText a).length ∧
      minNameLen ≤ (normalizeEvalText a).length ∧
      (isSubstringOf (normalizeEvalText a) (normalizeEvalText a) ||
        isSubstringOf (normalizeEvalText a) (normalizeEvalText a)) = true
      then (9 : ℚ) / 10 else 0) ≤ 1 := by
    split <;> norm_num
  rw [max_eq_left hsub, max_self]

/-- C8 amended: name_similarity(a, a) = 1.0 for every non-empty string a
(and token_set_similarity is symmetric), but name_similarity itself is not
symmetric, because the greedy block selection of the SequenceMatcher ratio
depends on the argument order. -/
theorem nameSimilarity_refl_and_token_comm :
    (∀ s : List Char, s ≠ [] →
        nameSimilarity (PyVal.fstr s) (PyVal.fstr s) = 1) ∧
      ∀ a b : List Char, tokenSetSimilarity a b = tokenSetSimilarity b a :=
  ⟨fun s _ => nameSimilarity_self (PyVal.fstr s), tokenSetSimilarity_comm⟩

/-- Witness for the amended C8 theorem at concrete strings. -/
theorem nameSimilarity_refl_witness :
    ("milch").data ≠ [] ∧
      nameSimilarity (PyVal.fstr ("milch").data) (PyVal.fstr ("milch").data) = 1 ∧
      tokenSetSimilarity ("500 g").data ("g 500").data =
        tokenSetSimilarity ("g 500").data ("500 g").data :=
  ⟨by decide, nameSimilarity_refl_and_token_comm.1 (("milch").data) (by decide),
    nameSimilarity_refl_and_token_comm.2 _ _⟩

/-- C8 counterexample: name_similarity is not symmetric; on this pair the
SequenceMatcher ratio is 6/11 one way and 4/11 the other, because the
longest-block tie is broken towards the first string, and the token and
substring components are 0. -/
theorem nameSimilarity_not_symmetric :
    nameSimilarity (PyVal.fstr ("mxypq").data) (PyVal.fstr ("pqmwxy").data) ≠
      nameSimilarity (PyVal.fstr ("pqmwxy").data) (PyVal.fstr ("mxypq").data) := by
  decide

/-- C10: when both the ground-truth name and the predicted name normalize
to the empty string, name_similarity is 1.0 (the SequenceMatcher ratio and
the token-set similarity of two empty strings are both defined as 1.0), so
the Matcher pairs the two nameless records with similarity 1.0, which
passes every configured name threshold (all of which are at most 1). -/
theorem nameless_records_match (na pa : PyVal) (th : ℚ)
    (hna : normalizeEvalText na = []) (hpa : normalizeEvalText pa = [])
    (hth : th ≤ 1) :
    nameSimilarity na pa = 1 ∧
      matchDeals [⟨na, PyVal.fnone, PyVal.fnone⟩]
        [⟨pa, PyVal.fnone, PyVal.fnone⟩] th = [(0, 0, 1)] := by
  have hsim : nameSimilarity na pa = 1 := by
    simp only [nameSimilarity, hna, hpa]
    rw [seqRatio_self, tokenSetSimilarity_self]
    norm_num [minNameLen]
  refine ⟨hsim, ?_⟩
  have henum1 : (([⟨na, PyVal.fnone, PyVal.fnone⟩] : List DealEntry).enum) =
      [(0, ⟨na, PyVal.fnone, PyVal.fnone⟩)] := rfl
  have henum2 : (([⟨pa, PyVal.fnone, PyVal.fnone⟩] : List DealEntry).enum) =
      [(0, ⟨pa, PyVal.fnone, PyVal.fnone⟩)] := rfl
  simp only [matchDeals, henum1, henum2, matchAux, bestPred, List.foldl_cons,
    List.foldl_nil, List.not_mem_nil, if_false]
  simp only [hsim]
  have h01 : (1 : ℚ) > 0 := by norm_num
  simp only [h01, if_true]
  have hg : ((0 : ℕ) : ℤ) ≠ -1 ∧ th ≤ ((((0 : ℕ) : ℤ), (1 : ℚ)) : ℤ × ℚ).2 := by
    constructor
    · decide
    · exact hth
  rw [if_pos hg]
  rfl

/-- Witness for the C10 theorem: a whitespace-only ground-truth name and a
missing predicted name pair up at the configured threshold 0.8. -/
theorem nameless_records_match_witness :
    normalizeEvalText (PyVal.fstr ("  ").data) = [] ∧
      normalizeEvalText PyVal.fnone = [] ∧ (4 : ℚ) / 5 ≤ 1 ∧
      (nameSimilarity (PyVal.fstr ("  ").data) PyVal.fnone = 1 ∧
        matchDeals [⟨PyVal.fstr ("  ").data, PyVal.fnone, PyVal.fnone⟩]
          [⟨PyVal.fnone, PyVal.fnone, PyVal.fnone⟩] (4 / 5) = [(0, 0, 1)]) :=
  ⟨by decide, rfl, by norm_num,
    nameless_records_match _ _ _ (by decide) rfl (by norm_num)⟩

/-- C6: computing SampleMetrics is total, every derived rate whose
denominator is zero equals 0.0 (with F1 = 0 when precision + recall = 0),
and empty lists on both sides yield precision = recall = F1 = 0. -/
theorem sample_metrics_zero_denominators (gt pred : List DealEntry) :
    ((scorePredictionLists gt pred).predTotal = 0 →
        (scorePredictionLists gt pred).precision = 0 ∧
        (scorePredictionLists gt pred).overpredictionRate = 0) ∧
    ((scorePredictionLists gt pred).gtTotal = 0 →
        (scorePredictionLists gt pred).dealRetrievalRate = 0 ∧
        (scorePredictionLists gt pred).nameAccuracy = 0 ∧
        (scorePredictionLists gt pred).safeDealRate = 0 ∧
        (scorePredictionLists gt pred).endToEndRecall = 0 ∧
        (scorePredictionLists gt pred).priceAccuracy = 0 ∧
        (scorePredictionLists gt pred).unitAccuracy = 0) ∧
    ((scorePredictionLists gt pred).matchedCount = 0 →
        (scorePredictionLists gt pred).priceReliability = 0) ∧
    ((scorePredictionLists gt pred).precision +
          (scorePredictionLists gt pred).dealRetrievalRate = 0 →
        (scorePredictionLists gt pred).f1 = 0) ∧
    (gt = [] → pred = [] →
        (scorePredictionLists gt pred).precision = 0 ∧
        (scorePredictionLists gt pred).dealRetrievalRate = 0 ∧
        (scorePredictionLists gt pred).f1 = 0) := by
  refine ⟨?_, ?_, ?_, ?_, ?_⟩
  · intro h
    simp only [scorePredictionLists] at h ⊢
    simp [h]
  · intro h
    simp only [scorePredictionLists] at h ⊢
    simp [h]
  · intro h
    simp only [scorePredictionLists] at h ⊢
    simp [h]
  · intro h
    simp only [scorePredictionLists] at h ⊢
    rw [if_pos h]
  · intro hgt hpred
    subst hgt
    subst hpred
    simp [scorePredictionLists, matchDeals, matchAux]

/-- Witness for the C6 theorem at the empty sample. -/
theorem sample_metrics_zero_denominators_witness :
    (scorePredictionLists [] []).precision = 0 ∧
      (scorePredictionLists [] []).dealRetrievalRate = 0 ∧
      (scorePredictionLists [] []).f1 = 0 :=
  (sample_metrics_zero_denominators [] []).2.2.2.2 rfl rfl

theorem priceOk_spelled (g p : DealEntry) :
    priceOk g p =
      (match parseNumber g.price, parseNumber p.price with
       | some a, some b => decide (|a - b| ≤ 1 / 100)
       | _, _ => false) := rfl

theorem unitOk_spelled (g p : DealEntry) :
    unitOk g p =
      (decide (normalizeUnitEval g.unit = []) ||
        decide (normalizeUnitEval p.unit = []) ||
        decide ((1 : ℚ) / 2 ≤ tokenSetSimilarity (normalizeUnitEval g.unit)
          (normalizeUnitEval p.unit))) := by
  simp only [unitOk, unitSimThreshold]
  by_cases hg : normalizeUnitEval g.unit = [] <;>
    by_cases hp : normalizeUnitEval p.unit = [] <;>
      simp [hg, hp]

theorem foldl_triple_count (p u : (Nat × Nat × ℚ) → Bool) :
    ∀ (l : List (Nat × Nat × ℚ)) (a b c : Nat),
      (l.foldl
        (fun acc m =>
          (acc.1 + (if p m then 1 else 0),
           acc.2.1 + (if u m then 1 else 0),
           acc.2.2 + (if p m && u m then 1 else 0)))
        (a, b, c))
      = (a + l.countP p, b + l.countP u, c + l.countP (fun m => p m && u m)) := by
  intro l
  induction l with
  | nil => intro a b c; simp
  | cons m rest ih =>
    intro a b c
    simp only [List.foldl_cons, List.countP_cons, ih]
    refine Prod.ext ?_ (Prod.ext ?_ ?_) <;> dsimp only <;>
      by_cases hp : p m <;> by_cases hu : u m <;> simp [hp, hu] <;> omega

/-- C5: for every matched pair the scorer counts price as correct iff both
prices parse and the absolute difference is at most NUMERIC_TOLERANCE =
0.01; counts unit as correct iff either normalized unit is empty or the
token-set similarity reaches UNIT_SIM_THRESHOLD = 0.5; and counts the pair
end-to-end correct iff both hold. -/
theorem score_counts_match_policy (gt pred : List DealEntry) :
    (scorePredictionLists gt pred).priceCorrectCount =
      (matchDeals gt pred nameSimThreshold).countP (fun m =>
        match parseNumber (gt.getD m.1 default).price,
            parseNumber (pred.getD m.2.1 default).price with
        | some a, some b => decide (|a - b| ≤ 1 / 100)
        | _, _ => false) ∧
    (scorePredictionLists gt pred).unitCorrectCount =
      (matchDeals gt pred nameSimThreshold).countP (fun m =>
        decide (normalizeUnitEval (gt.getD m.1 default).unit = []) ||
        decide (normalizeUnitEval (pred.getD m.2.1 default).unit = []) ||
        decide ((1 : ℚ) / 2 ≤ tokenSetSimilarity
          (normalizeUnitEval (gt.getD m.1 default).unit)
          (normalizeUnitEval (pred.getD m.2.1 default).unit))) ∧
    (scorePredictionLists gt pred).e2eCorrectCount =
      (matchDeals gt pred nameSimThreshold).countP (fun m =>
        (match parseNumber (gt.getD m.1 default).price,
            parseNumber (pred.getD m.2.1 default).price with
         | some a, some b => decide (|a - b| ≤ 1 / 100)
         | _, _ => false) &&
        (decide (normalizeUnitEval (gt.getD m.1 default).unit = []) ||
         decide (normalizeUnitEval (pred.getD m.2.1 default).unit = []) ||
         decide ((1 : ℚ) / 2 ≤ tokenSetSimilarity
           (normalizeUnitEval (gt.getD m.1 default).unit)
           (normalizeUnitEval (pred.getD m.2.1 default).unit)))) := by
  have hfold := foldl_triple_count
    (fun m => priceOk (gt.getD m.1 default) (pred.getD m.2.1 default))
    (fun m => unitOk (gt.getD m.1 default) (pred.getD m.2.1 default))
    (matchDeals gt pred nameSimThreshold) 0 0 0
  have hp : ∀ m : Nat × Nat × ℚ,
      priceOk (gt.getD m.1 default) (pred.getD m.2.1 default) =
        (match parseNumber (gt.getD m.1 default).price,
            parseNumber (pred.getD m.2.1 default).price with
         | some a, some b => decide (|a - b| ≤ 1 / 100)
         | _, _ => false) := fun m => priceOk_spelled _ _
  have hu : ∀ m : Nat × Nat × ℚ,
      unitOk (gt.getD m.1 default) (pred.getD m.2.1 default) =
        (decide (normalizeUnitEval (gt.getD m.1 default).unit = []) ||
         decide (normalizeUnitEval (pred.getD m.2.1 default).unit = []) ||
         decide ((1 : ℚ) / 2 ≤ tokenSetSimilarity
           (normalizeUnitEval (gt.getD m.1 default).unit)
           (normalizeUnitEval (pred.getD m.2.1 default).unit))) :=
    fun m => unitOk_spelled _ _
  refine ⟨?_, ?_, ?_⟩
  · show ((matchDeals gt pred nameSimThreshold).foldl _ (0, 0, 0)).1 = _
    rw [hfold]
    simp only [Nat.zero_add]
    exact List.countP_congr (fun m _ => by rw [hp m])
  · show ((matchDeals gt pred nameSimThreshold).foldl _ (0, 0, 0)).2.1 = _
    rw [hfold]
    simp only [Nat.zero_add]
    exact List.countP_congr (fun m _ => by rw [hu m])
  · show ((matchDeals gt pred nameSimThreshold).foldl _ (0, 0, 0)).2.2 = _
    rw [hfold]
    simp only [Nat.zero_add]
    exact List.countP_congr (fun m _ => by rw [hp m, hu m])

theorem aggFold_fields : ∀ (ms : List SampleMetrics) (acc : AggSums),
    (ms.foldl aggStep acc).n = acc.n + ms.length ∧
    (ms.foldl aggStep acc).precision =
      acc.precision + (ms.map (fun m => m.precision)).sum ∧
    (ms.foldl aggStep acc).dealRetrievalRate =
      acc.dealRetrievalRate + (ms.map (fun m => m.dealRetrievalRate)).sum ∧
    (ms.foldl aggStep acc).f1 = acc.f1 + (ms.map (fun m => m.f1)).sum ∧
    (ms.foldl aggStep acc).overpredictionRate =
      acc.overpredictionRate + (ms.map (fun m => m.overpredictionRate)).sum ∧
    (ms.foldl aggStep acc).priceReliability =
      acc.priceReliability + (ms.map (fun m => m.priceReliability)).sum ∧
    (ms.foldl aggStep acc).safeDealRate =
      acc.safeDealRate + (ms.map (fun m => m.safeDealRate)).sum ∧
    (ms.foldl aggStep acc).priceAccuracy =
      acc.priceAccuracy + (ms.map (fun m => m.priceAccuracy)).sum ∧
    (ms.foldl aggStep acc).unitAccuracy =
      acc.unitAccuracy + (ms.map (fun m => m.unitAccuracy)).sum := by
  intro ms
  induction ms with
  | nil => intro acc; simp
  | cons m rest ih =>
    intro acc
    simp only [List.foldl_cons, List.map_cons, List.sum_cons, List.length_cons]
    have h := ih (aggStep acc m)
    refine ⟨?_, ?_, ?_, ?_, ?_, ?_, ?_, ?_, ?_⟩
    · rw [h.1]
      simp only [aggStep]
      omega
    · rw [h.2.1]
      simp only [aggStep]
      ring
    · rw [h.2.2.1]
      simp only [aggStep]
      ring
    · rw [h.2.2.2.1]
      simp only [aggStep]
      ring
    · rw [h.2.2.2.2.1]
      simp only [aggStep]
      ring
    · rw [h.2.2.2.2.2.1]
      simp only [aggStep]
      ring
    · rw [h.2.2.2.2.2.2.1]
      simp only [aggStep]
      ring
    · rw [h.2.2.2.2.2.2.2.1]
      simp only [aggStep]
      ring
    · rw [h.2.2.2.2.2.2.2.2]
      simp only [aggStep]
      ring

/-- C4 amended: in the prebench harness every corpus-level rate equals the
unweighted arithmetic mean of the per-sample values of that rate across
all processed samples (macro-average); the benchmark_cloud_local variant
instead pools counts across samples (micro-average), see the
counterexample. -/
theorem runAggregate_macro_average (ms : List SampleMetrics) (h : ms ≠ []) :
    (runAggregate ms).precision =
      (ms.map (fun m => m.precision)).sum / (ms.length : ℚ) ∧
    (runAggregate ms).dealRetrievalRate =
      (ms.map (fun m => m.dealRetrievalRate)).sum / (ms.length : ℚ) ∧
    (runAggregate ms).f1 = (ms.map (fun m => m.f1)).sum / (ms.length : ℚ) ∧
    (runAggregate ms).overpredictionRate =
      (ms.map (fun m => m.overpredictionRate)).sum / (ms.length : ℚ) ∧
    (runAggregate ms).priceReliability =
      (ms.map (fun m => m.priceReliability)).sum / (ms.length : ℚ) ∧
    (runAggregate ms).safeDealRate =
      (ms.map (fun m => m.safeDealRate)).sum / (ms.length : ℚ) ∧
    (runAggregate ms).priceAccuracy =
      (ms.map (fun m => m.priceAccuracy)).sum / (ms.length : ℚ) ∧
    (runAggregate ms).unitAccuracy =
      (ms.map (fun m => m.unitAccuracy)).sum / (ms.length : ℚ) := by
  have hf := aggFold_fields ms aggInit
  have hn : (ms.foldl aggStep aggInit).n = ms.length := by
    rw [hf.1]
    simp [aggInit]
  have hne : (ms.foldl aggStep aggInit).n ≠ 0 := by
    rw [hn]
    simpa using h
  simp only [runAggregate, hne, if_false]
  rw [hn]
  refine ⟨?_, ?_, ?_, ?_, ?_, ?_, ?_, ?_⟩
  · rw [hf.2.1]
    simp [aggInit]
  · rw [hf.2.2.1]
    simp [aggInit]
  · rw [hf.2.2.2.1]
    simp [aggInit]
  · rw [hf.2.2.2.2.1]
    simp [aggInit]
  · rw [hf.2.2.2.2.2.1]
    simp [aggInit]
  · rw [hf.2.2.2.2.2.2.1]
    simp [aggInit]
  · rw [hf.2.2.2.2.2.2.2.1]
    simp [aggInit]
  · rw [hf.2.2.2.2.2.2.2.2]
    simp [aggInit]

/-- Witness for the amended C4 theorem on a one-sample run. -/
theorem runAggregate_macro_average_witness :
    (runAggregate [scorePredictionLists [] []]).precision =
      (([scorePredictionLists [] []].map (fun m => m.precision)).sum) /
        (([scorePredictionLists [] []] : List SampleMetrics).length : ℚ) :=
  (runAggregate_macro_average [scorePredictionLists [] []]
    (List.cons_ne_nil _ _)).1

/-- C4 counterexample: the corpus precision of the benchmark_cloud_local
evaluate_metrics on a two-sample run (one perfectly matched single-deal
sample and one fully mismatched two-deal sample) is the pooled 1/3, not
the unweighted mean 1/2 of the two per-sample precisions 1 and 0. -/
theorem cloud_precision_not_macro_average :
    cloudPrecision
        [[⟨("milch").data, PyVal.fnone, none⟩],
         [⟨("aaaa").data, PyVal.fnone, none⟩, ⟨("aaaa").data, PyVal.fnone, none⟩]]
        [[⟨("milch").data, PyVal.fnone, none⟩],
         [⟨("zzzz").data, PyVal.fnone, none⟩, ⟨("zzzz").data, PyVal.fnone, none⟩]]
      ≠ (cloudPrecision [[⟨("milch").data, PyVal.fnone, none⟩]]
            [[⟨("milch").data, PyVal.fnone, none⟩]] +
          cloudPrecision
            [[⟨("aaaa").data, PyVal.fnone, none⟩, ⟨("aaaa").data, PyVal.fnone, none⟩]]
            [[⟨("zzzz").data, PyVal.fnone, none⟩, ⟨("zzzz").data, PyVal.fnone, none⟩]]) / 2 := by
  decide

theorem calculateIou_degenerate (ax1 ay1 ax2 ay2 bx1 by1 bx2 by2 : ℚ)
    (h : ax2 ≤ ax1 ∨ ay2 ≤ ay1 ∨ bx2 ≤ bx1 ∨ by2 ≤ by1) :
    calculateIou (some (ax1, ay1, ax2, ay2)) (some (bx1, by1, bx2, by2)) = 0 := by
  simp only [calculateIou]
  split_ifs with h1 h2
  · rfl
  · push_neg at h1
    have hzero : (min ax2 bx2 - max ax1 bx1) * (min ay2 by2 - max ay1 by1) = 0 := by
      rcases h with hx | hy | hbx | hby
      · have he : min ax2 bx2 = max ax1 bx1 :=
          le_antisymm
            (le_trans (min_le_left _ _) (le_trans hx (le_max_left _ _))) h1.1
        rw [he, sub_self, zero_mul]
      · have he : min ay2 by2 = max ay1 by1 :=
          le_antisymm
            (le_trans (min_le_left _ _) (le_trans hy (le_max_left _ _))) h1.2
        rw [he, sub_self, mul_zero]
      · have he : min ax2 bx2 = max ax1 bx1 :=
          le_antisymm
            (le_trans (min_le_right _ _) (le_trans hbx (le_max_right _ _))) h1.1
        rw [he, sub_self, zero_mul]
      · have he : min ay2 by2 = max ay1 by1 :=
          le_antisymm
            (le_trans (min_le_right _ _) (le_trans hby (le_max_right _ _))) h1.2
        rw [he, sub_self, mul_zero]
    rw [hzero, zero_div]
  · rfl

/-- C9 amended: calculate_iou returns a value for every pair of inputs,
0.0 for a missing box, 0.0 when either box is degenerate, 0.0 when the
boxes do not overlap, 0.0 when the union is not positive, and
calculate_iou(box, box) = 1.0 for every box with positive area; for a
degenerate box the same-box IoU is 0.0, not 1.0 (see counterexample). -/
theorem calculateIou_policy :
    (∀ b, calculateIou none b = 0) ∧
    (∀ b, calculateIou b none = 0) ∧
    (∀ ax1 ay1 ax2 ay2 bx1 by1 bx2 by2 : ℚ,
      ax2 ≤ ax1 ∨ ay2 ≤ ay1 ∨ bx2 ≤ bx1 ∨ by2 ≤ by1 →
      calculateIou (some (ax1, ay1, ax2, ay2)) (some (bx1, by1, bx2, by2)) = 0) ∧
    (∀ ax1 ay1 ax2 ay2 bx1 by1 bx2 by2 : ℚ,
      min ax2 bx2 < max ax1 bx1 ∨ min ay2 by2 < max ay1 by1 →
      calculateIou (some (ax1, ay1, ax2, ay2)) (some (bx1, by1, bx2, by2)) = 0) ∧
    (∀ ax1 ay1 ax2 ay2 bx1 by1 bx2 by2 : ℚ,
      (ax2 - ax1) * (ay2 - ay1) + (bx2 - bx1) * (by2 - by1) -
          (min ax2 bx2 - max ax1 bx1) * (min ay2 by2 - max ay1 by1) ≤ 0 →
      calculateIou (some (ax1, ay1, ax2, ay2)) (some (bx1, by1, bx2, by2)) = 0) ∧
    (∀ x1 y1 x2 y2 : ℚ, x1 < x2 → y1 < y2 →
      calculateIou (some (x1, y1, x2, y2)) (some (x1, y1, x2, y2)) = 1) := by
  refine ⟨?_, ?_, calculateIou_degenerate, ?_, ?_, ?_⟩
  · intro b
    rfl
  · intro b
    cases b <;> rfl
  · intro ax1 ay1 ax2 ay2 bx1 by1 bx2 by2 h
    simp only [calculateIou]
    rw [if_pos h]
  · intro ax1 ay1 ax2 ay2 bx1 by1 bx2 by2 h
    simp only [calculateIou]
    split_ifs with h1 h2
    · rfl
    · exact absurd h (not_le.mpr h2)
    · rfl
  · intro x1 y1 x2 y2 hx hy
    simp only [calculateIou, max_self, min_self]
    have h1 : ¬ (x2 < x1 ∨ y2 < y1) := by
      push_neg
      exact ⟨le_of_lt hx, le_of_lt hy⟩
    rw [if_neg h1]
    have harea : 0 < (x2 - x1) * (y2 - y1) :=
      mul_pos (by linarith) (by linarith)
    have hunion : (x2 - x1) * (y2 - y1) + (x2 - x1) * (y2 - y1) -
        (x2 - x1) * (y2 - y1) = (x2 - x1) * (y2 - y1) := by ring
    rw [hunion, if_pos harea]
    exact div_self (ne_of_gt harea)

/-- Witness for the amended C9 theorem on the unit box. -/
theorem calculateIou_policy_witness :
    calculateIou (some ((0 : ℚ), 0, 1, 1)) (some ((0 : ℚ), 0, 1, 1)) = 1 :=
  calculateIou_policy.2.2.2.2.2 0 0 1 1 (by norm_num) (by norm_num)

/-- C9 counterexample: for the degenerate box with zero area the same-box
IoU is 0.0, not 1.0; the intersection is empty and the union is zero, so
the zero-union guard returns 0.0. -/
theorem calculateIou_self_degenerate_ne_one :
    calculateIou (some ((0 : ℚ), 0, 0, 0)) (some ((0 : ℚ), 0, 0, 0)) ≠ 1 := by
  decide

theorem firstParse_none :
    ∀ l : List (List Char), (∀ c ∈ l, jsonLoads c = none) → firstParse l = none
  | [], _ => rfl
  | c :: rest, h => by
    simp only [firstParse, h c (List.mem_cons_self c rest)]
    exact firstParse_none rest (fun d hd => h d (List.mem_cons_of_mem c hd))

/-- C3 amended: the recovery of _parse_json_from_text parses the text
as-is, then tries the non-greedy bracket candidates (arrays collected
first, then objects) in reversed order, with no fence-stripping step and
with object candidates preferred over a later array (see counterexample);
a single parsed object is wrapped as a one-element list, and when every
strategy fails the prediction becomes an empty list, never an error. -/
theorem parse_json_recovery_behavior :
    (∀ (t : List Char) (v : Json), jsonLoads t = some v →
      parseJsonFromText t = some v) ∧
    (∀ t : List Char, jsonLoads t = none →
      (∀ c ∈ scanCands '[' ']' (t.length + 1) t ++
          scanCands '{' '}' (t.length + 1) t, jsonLoads c = none) →
      ensureList (parseJsonFromText t) = []) ∧
    (∀ o, ensureList (some (Json.jobj o)) = [Json.jobj o]) ∧
    (∀ l, ensureList (some (Json.jarr l)) = l.filter isJObj) := by
  refine ⟨?_, ?_, fun o => rfl, fun l => rfl⟩
  · intro t v h
    have ht : t ≠ [] := by
      intro he
      subst he
      rw [show jsonLoads ([] : List Char) = none from rfl] at h
      exact Option.noConfusion h
    simp [parseJsonFromText, ht, h]
  · intro t h hc
    by_cases ht : t = []
    · subst ht
      rfl
    · have hfp := firstParse_none
        ((scanCands '[' ']' (t.length + 1) t ++
          scanCands '{' '}' (t.length + 1) t).reverse)
        (fun c hcm => hc c (List.mem_reverse.mp hcm))
      rw [List.reverse_append] at hfp
      simp [parseJsonFromText, ht, h, hfp, ensureList]

/-- Witness for the amended C3 theorem: a bare JSON array parses as-is. -/
theorem parse_json_recovery_behavior_witness :
    parseJsonFromText (("[1]").data) = some (Json.jarr [Json.jnum 1]) :=
  parse_json_recovery_behavior.1 _ _ rfl

/-- C3 counterexample: on a text holding an object followed by a later
array, the source returns the object wrapped in a list, while the chain
the spec describes (parse as-is, strip fences, then the last well-formed
bracketed substring) returns the array; the code also has no
fence-stripping step. -/
theorem parse_recover_ne_spec_chain :
    ensureList (parseJsonFromText (("\x7b\"a\": 2\x7d [1]").data)) ≠
      specJsonRecover (("\x7b\"a\": 2\x7d [1]").data) := by
  intro h
  have h1 : ensureList (parseJsonFromText (("\x7b\"a\": 2\x7d [1]").data)) =
      [Json.jobj [(("a").data, Json.jnum 2)]] := rfl
  have h2 : specJsonRecover (("\x7b\"a\": 2\x7d [1]").data) = [Json.jnum 1] := rfl
  rw [h1, h2] at h
  exact absurd h (by simp)

theorem digitChar_isDigit (d : Nat) (h : d < 10) :
    (Char.ofNat (48 + d)).isDigit = true := by
  interval_cases d <;> decide

theorem digitVal_digitChar (d : Nat) (h : d < 10) :
    digitVal (Char.ofNat (48 + d)) = d := by
  interval_cases d <;> decide

theorem digitChar_ne_comma (d : Nat) (h : d < 10) :
    Char.ofNat (48 + d) ≠ ',' := by
  interval_cases d <;> decide

theorem natDigitsAux_digits :
    ∀ (fuel n : Nat), ∀ c ∈ natDigitsAux fuel n, c.isDigit = true := by
  intro fuel
  induction fuel with
  | zero => intro n c hc; simp [natDigitsAux] at hc
  | succ f ih =>
    intro n c hc
    simp only [natDigitsAux] at hc
    by_cases hn : n = 0
    · simp [hn] at hc
    · rw [if_neg hn] at hc
      rcases List.mem_append.mp hc with hl | hr
      · exact ih (n / 10) c hl
      · have : c = Char.ofNat (48 + n % 10) := by simpa using hr
        rw [this]
        exact digitChar_isDigit _ (Nat.mod_lt _ (by norm_num))

theorem digitsToNat_append_singleton (l : List Char) (c : Char) :
    digitsToNat (l ++ [c]) = digitsToNat l * 10 + digitVal c := by
  simp [digitsToNat, List.foldl_append]

theorem digitsToNat_natDigitsAux :
    ∀ (fuel n : Nat), n ≤ fuel → digitsToNat (natDigitsAux fuel n) = n := by
  intro fuel
  induction fuel with
  | zero =>
    intro n h
    have : n = 0 := Nat.le_zero.mp h
    simp [this, natDigitsAux, digitsToNat]
  | succ f ih =>
    intro n h
    simp only [natDigitsAux]
    by_cases hn : n = 0
    · simp [hn, digitsToNat]
    · rw [if_neg hn, digitsToNat_append_singleton,
        digitVal_digitChar _ (Nat.mod_lt _ (by norm_num))]
      have hdiv : n / 10 ≤ f := by
        have h1 : n / 10 < n := Nat.div_lt_self (Nat.pos_of_ne_zero hn) (by norm_num)
        omega
      rw [ih (n / 10) hdiv]
      omega

theorem natToChars_digits (n : Nat) : ∀ c ∈ natToChars n, c.isDigit = true := by
  intro c hc
  simp only [natToChars] at hc
  by_cases hn : n = 0
  · rw [if_pos hn] at hc
    have : c = Char.ofNat 48 := by simpa using hc
    rw [this]
    decide
  · rw [if_neg hn] at hc
    exact natDigitsAux_digits n n c hc

theorem natToChars_ne_nil (n : Nat) : natToChars n ≠ [] := by
  simp only [natToChars]
  by_cases hn : n = 0
  · simp [hn]
  · rw [if_neg hn]
    obtain ⟨m, hm⟩ := Nat.exists_eq_succ_of_ne_zero hn
    subst hm
    simp only [natDigitsAux, if_neg (Nat.succ_ne_zero m)]
    simp

theorem digitsToNat_natToChars (n : Nat) : digitsToNat (natToChars n) = n := by
  simp only [natToChars]
  by_cases hn : n = 0
  · simp [hn, digitsToNat, digitVal]
  · rw [if_neg hn]
    exact digitsToNat_natDigitsAux n n (le_refl n)

theorem takeWhile_append_stop (p : Char → Bool) :
    ∀ (l : List Char) (c : Char) (r : List Char), (∀ x ∈ l, p x = true) →
      p c = false →
      (l ++ c :: r).takeWhile p = l ∧ (l ++ c :: r).dropWhile p = c :: r := by
  intro l
  induction l with
  | nil =>
    intro c r _ hc
    refine ⟨?_, ?_⟩ <;> simp [List.takeWhile_cons, List.dropWhile_cons, hc]
  | cons x xs ih =>
    intro c r hl hc
    have hx : p x = true := hl x (List.mem_cons_self _ _)
    have hrest := ih c r (fun y hy => hl y (List.mem_cons_of_mem _ hy)) hc
    constructor
    · simp only [List.cons_append, List.takeWhile_cons, hx, if_true, hrest.1]
    · simp only [List.cons_append, List.dropWhile_cons, hx, if_true, hrest.2]

theorem takeWhile_all (p : Char → Bool) :
    ∀ l : List Char, (∀ x ∈ l, p x = true) →
      l.takeWhile p = l ∧ l.dropWhile p = [] := by
  intro l
  induction l with
  | nil => intro _; simp
  | cons x xs ih =>
    intro hl
    have hx : p x = true := hl x (List.mem_cons_self _ _)
    have hrest := ih (fun y hy => hl y (List.mem_cons_of_mem _ hy))
    simp [List.takeWhile_cons, List.dropWhile_cons, hx, hrest.1, hrest.2]

theorem pad2_digits (r : Nat) (h : r < 100) :
    ∀ c ∈ pad2 r, c.isDigit = true := by
  intro c hc
  simp only [pad2, List.mem_cons, List.not_mem_nil, or_false] at hc
  rcases hc with hc | hc <;> rw [hc]
  · exact digitChar_isDigit _ (by omega)
  · exact digitChar_isDigit _ (Nat.mod_lt _ (by norm_num))

theorem pad2_ne_nil (r : Nat) : pad2 r ≠ [] := by
  simp [pad2]

theorem pad2_length (r : Nat) : (pad2 r).length = 2 := rfl

theorem digitsToNat_pad2 (r : Nat) (h : r < 100) : digitsToNat (pad2 r) = r := by
  simp only [pad2, digitsToNat, List.foldl_cons, List.foldl_nil]
  rw [show (0 : Nat) * 10 = 0 from rfl, Nat.zero_add,
    digitVal_digitChar _ (by omega),
    digitVal_digitChar _ (Nat.mod_lt _ (by norm_num))]
  omega

theorem formatPrice_chars_ne_comma (q : ℚ) : ∀ c ∈ formatPrice q, c ≠ ',' := by
  intro c hc
  simp only [formatPrice] at hc
  set n := roundHalfEven (q * 100)
  have hdig : c ∈ natToChars (n.natAbs / 100) → c ≠ ',' := by
    intro h1 he
    have hd := natToChars_digits _ c h1
    rw [he] at hd
    exact absurd hd (by decide)
  have htail : c ∈ '.' :: pad2 (n.natAbs % 100) → c ≠ ',' := by
    intro h2
    simp only [List.mem_cons] at h2
    rcases h2 with h2 | h2
    · rw [h2]
      decide
    · intro he
      have hd := pad2_digits _ (Nat.mod_lt _ (by norm_num)) c h2
      rw [he] at hd
      exact absurd hd (by decide)
  rcases List.mem_append.mp hc with h1 | h2
  · by_cases hneg : n < 0
    · rw [if_pos hneg] at h1
      rcases List.mem_append.mp h1 with h3 | h4
      · simp only [List.mem_singleton] at h3
        rw [h3]
        decide
      · exact hdig h4
    · rw [if_neg hneg] at h1
      simp only [List.nil_append] at h1
      exact hdig h1
  · exact htail h2

theorem map_comma_id (s : List Char) (h : ∀ c ∈ s, c ≠ ',') :
    s.map (fun c => if c = ',' then '.' else c) = s := by
  induction s with
  | nil => rfl
  | cons x xs ih =>
    have hx : x ≠ ',' := h x (List.mem_cons_self _ _)
    simp only [List.map_cons, hx, if_false,
      ih (fun y hy => h y (List.mem_cons_of_mem _ hy))]

theorem readNum_priceBody (m : Nat) :
    readNum (natToChars (m / 100) ++ '.' :: pad2 (m % 100)) =
      some ((m : ℚ) / 100) := by
  have hI := natToChars_digits (m / 100)
  have hmod : m % 100 < 100 := Nat.mod_lt _ (by norm_num)
  have hsplit := takeWhile_append_stop Char.isDigit (natToChars (m / 100)) '.'
    (pad2 (m % 100)) hI (by decide)
  have hfs := takeWhile_all Char.isDigit (pad2 (m % 100)) (pad2_digits _ hmod)
  unfold readNum
  rw [hsplit.1, hsplit.2, if_neg (natToChars_ne_nil (m / 100))]
  split
  next r2 heq =>
    have hr2 : r2 = pad2 (m % 100) := by
      injection heq with _ h2
      exact h2.symm
    subst hr2
    rw [hfs.1, if_neg (pad2_ne_nil _), digitsToNat_natToChars,
      digitsToNat_pad2 _ hmod, pad2_length]
    congr 1
    have key : 100 * ((m / 100 : Nat) : ℚ) + ((m % 100 : Nat) : ℚ) = (m : ℚ) := by
      exact_mod_cast Nat.div_add_mod m 100
    have hpow : ((10 : ℚ)) ^ (2 : Nat) = 100 := by norm_num
    rw [hpow]
    field_simp
    linarith [key]
  next hne =>
    exact (hne (pad2 (m % 100)) rfl).elim

theorem findNumber_cons_eq (c : Char) (rest : List Char) :
    findNumber (c :: rest) =
      (match matchNumAt (c :: rest) with
       | some q => some q
       | none => findNumber rest) := rfl

theorem matchNumAt_dash (r : List Char) :
    matchNumAt ('-' :: r) = (readNum r).map (fun q => -q) := rfl

theorem matchNumAt_digit (c : Char) (rest : List Char) (hc : c ≠ '-') :
    matchNumAt (c :: rest) = readNum (c :: rest) := by
  unfold matchNumAt
  split
  next r heq =>
    injection heq with h1 _
    exact absurd h1 hc
  next => rfl

theorem parseNumber_formatPrice (q : ℚ) :
    parseNumber (PyVal.fstr (formatPrice q)) =
      some (((roundHalfEven (q * 100) : ℤ) : ℚ) / 100) := by
  simp only [parseNumber]
  rw [map_comma_id _ (formatPrice_chars_ne_comma q)]
  simp only [formatPrice]
  set n := roundHalfEven (q * 100) with hn
  by_cases hneg : n < 0
  · rw [if_pos hneg, List.append_assoc, List.singleton_append,
      findNumber_cons_eq, matchNumAt_dash, readNum_priceBody]
    show some (-(((n.natAbs : Nat) : ℚ) / 100)) = some ((n : ℚ) / 100)
    congr 1
    rw [Int.cast_natAbs, abs_of_neg hneg]
    push_cast
    ring
  · rw [if_neg hneg, List.nil_append]
    obtain ⟨c0, I0, hI0⟩ : ∃ c0 I0, natToChars (n.natAbs / 100) = c0 :: I0 := by
      cases hI : natToChars (n.natAbs / 100) with
      | nil => exact absurd hI (natToChars_ne_nil _)
      | cons c0 I0 => exact ⟨c0, I0, rfl⟩
    have hc0d : c0.isDigit = true := by
      have := natToChars_digits (n.natAbs / 100) c0
      rw [hI0] at this
      exact this (List.mem_cons_self _ _)
    have hc0 : c0 ≠ '-' := by
      intro he
      rw [he] at hc0d
      exact absurd hc0d (by decide)
    rw [hI0, List.cons_append, findNumber_cons_eq,
      matchNumAt_digit _ _ hc0, ← List.cons_append, ← hI0, readNum_priceBody]
    show some (((n.natAbs : Nat) : ℚ) / 100) = some ((n : ℚ) / 100)
    congr 1
    rw [Int.cast_natAbs, abs_of_nonneg (not_lt.mp hneg)]

theorem roundHalfEven_intCast (k : ℤ) : roundHalfEven ((k : ℚ)) = k := by
  simp only [roundHalfEven]
  rw [Int.floor_intCast, sub_self]
  norm_num

theorem formatPrice_of_div100 (n : ℤ) :
    formatPrice ((n : ℚ) / 100) =
      (if n < 0 then ['-'] else []) ++ natToChars (n.natAbs / 100) ++
        '.' :: pad2 (n.natAbs % 100) := by
  unfold formatPrice
  have h100 : ((n : ℚ)) / 100 * 100 = (n : ℚ) := by
    field_simp
  rw [h100, roundHalfEven_intCast]

theorem matchesSignedPriceShape_digit (c : Char) (rest : List Char)
    (hc : c ≠ '-') :
    matchesSignedPriceShape (c :: rest) = matchesPriceShape (c :: rest) := by
  unfold matchesSignedPriceShape
  split
  next r heq =>
    injection heq with h1 _
    exact absurd h1 hc
  next => rfl

theorem matchesPriceShape_body (m : Nat) :
    matchesPriceShape (natToChars (m / 100) ++ '.' :: pad2 (m % 100)) = true := by
  have hsplit := takeWhile_append_stop Char.isDigit (natToChars (m / 100)) '.'
    (pad2 (m % 100)) (natToChars_digits (m / 100)) (by decide)
  simp only [matchesPriceShape, hsplit.1, hsplit.2]
  rw [Bool.and_eq_true]
  constructor
  · simpa using natToChars_ne_nil (m / 100)
  · split
    next d1 d2 heq =>
      have h1 : d1 = Char.ofNat (48 + m % 100 / 10) := by
        have := heq
        simp only [pad2] at this
        injection this with _ h2
        injection h2 with h3 _
        exact h3.symm
      have h2 : d2 = Char.ofNat (48 + m % 100 % 10) := by
        have := heq
        simp only [pad2] at this
        injection this with _ h4
        injection h4 with _ h5
        injection h5 with h6 _
        exact h6.symm
      rw [h1, h2, Bool.and_eq_true]
      have hmod : m % 100 < 100 := Nat.mod_lt _ (by norm_num)
      exact ⟨digitChar_isDigit _ (by omega),
        digitChar_isDigit _ (Nat.mod_lt _ (by norm_num))⟩
    next hne =>
      exact (hne (Char.ofNat (48 + m % 100 / 10))
        (Char.ofNat (48 + m % 100 % 10)) rfl).elim

theorem matchesSignedPriceShape_formatPrice (q : ℚ) :
    matchesSignedPriceShape (formatPrice q) = true := by
  simp only [formatPrice]
  set n := roundHalfEven (q * 100)
  by_cases hneg : n < 0
  · rw [if_pos hneg, List.append_assoc, List.singleton_append]
    show matchesPriceShape (natToChars (n.natAbs / 100) ++
      '.' :: pad2 (n.natAbs % 100)) = true
    exact matchesPriceShape_body n.natAbs
  · rw [if_neg hneg, List.nil_append]
    obtain ⟨c0, I0, hI0⟩ : ∃ c0 I0, natToChars (n.natAbs / 100) = c0 :: I0 := by
      cases hI : natToChars (n.natAbs / 100) with
      | nil => exact absurd hI (natToChars_ne_nil _)
      | cons c0 I0 => exact ⟨c0, I0, rfl⟩
    have hc0d : c0.isDigit = true := by
      have := natToChars_digits (n.natAbs / 100) c0
      rw [hI0] at this
      exact this (List.mem_cons_self _ _)
    have hc0 : c0 ≠ '-' := by
      intro he
      rw [he] at hc0d
      exact absurd hc0d (by decide)
    rw [hI0, List.cons_append, matchesSignedPriceShape_digit _ _ hc0,
      ← List.cons_append, ← hI0]
    exact matchesPriceShape_body n.natAbs

/-- C7 amended: normalize_price is idempotent (applying it to its own
non-null output returns the same string), and its non-null output always
matches the signed decimal pattern, one or more digits, a dot and exactly
two digits with an optional leading minus sign; the unsigned pattern of
the claim fails for negative inputs, see the counterexample. -/
theorem normalizePrice_idem_and_shape :
    (∀ (v : PyVal) (s : List Char), normalizePrice v = some s →
      normalizePrice (PyVal.fstr s) = some s) ∧
    (∀ (v : PyVal) (s : List Char), normalizePrice v = some s →
      matchesSignedPriceShape s = true) := by
  have hform : ∀ (v : PyVal) (s : List Char), normalizePrice v = some s →
      ∃ q : ℚ, s = formatPrice q := by
    intro v s h
    simp only [normalizePrice] at h
    cases hp : parseNumber v with
    | none =>
      rw [hp] at h
      exact Option.noConfusion h
    | some q =>
      rw [hp] at h
      have h2 : some (formatPrice q) = some s := h
      exact ⟨q, (Option.some_inj.mp h2).symm⟩
  have hkey : ∀ q : ℚ,
      normalizePrice (PyVal.fstr (formatPrice q)) = some (formatPrice q) := by
    intro q
    simp only [normalizePrice, parseNumber_formatPrice]
    show some (formatPrice (((roundHalfEven (q * 100) : ℤ) : ℚ) / 100)) =
      some (formatPrice q)
    congr 1
    rw [formatPrice_of_div100]
    rfl
  constructor
  · intro v s h
    obtain ⟨q, hq⟩ := hform v s h
    rw [hq]
    exact hkey q
  · intro v s h
    obtain ⟨q, hq⟩ := hform v s h
    rw [hq]
    exact matchesSignedPriceShape_formatPrice q

/-- Witness for the amended C7 theorem at a concrete price string. -/
theorem normalizePrice_idem_witness :
    normalizePrice (PyVal.fstr (("3.5").data)) = some (("3.50").data) ∧
      normalizePrice (PyVal.fstr (("3.50").data)) = some (("3.50").data) ∧
      matchesSignedPriceShape (("3.50").data) = true :=
  ⟨by decide,
    normalizePrice_idem_and_shape.1 (PyVal.fstr (("3.5").data))
      (("3.50").data) (by decide),
    normalizePrice_idem_and_shape.2 (PyVal.fstr (("3.5").data))
      (("3.50").data) (by decide)⟩

/-- C7 counterexample: a negative price string normalizes to a non-null
output with a leading minus sign, which does not match the unsigned
pattern of the claim (digits, dot, two digits only). -/
theorem normalizePrice_negative_breaks_pattern :
    normalizePrice (PyVal.fstr (("-5").data)) = some (("-5.00").data) ∧
      matchesPriceShape (("-5.00").data) = false := by
  constructor
  · decide
  · decide
